import Mathlib

/-!
# CombinationsEngine (src/scripts/translations/pt-br.js)

A shallow embedding of the `CombinationsEngine` class: the list store, the
configuration, the Cartesian product, the permutation generator, `generate`
and `generateWithLimit`; of the live count, the Cartesian product and the
permutation generator of src/script.js (namespace `Script`); and of the same
engine methods run on a heap of mutable objects (namespace `Mem`).

Modelling conventions.

* A JavaScript string is a Lean `String` (a sequence of Unicode scalar values);
  iterating a string (`[...s]`) yields its code points one by one.
* A JavaScript array is a Lean `List`.
* A method that can throw returns `Except EngineError _`.
* A method that mutates `this` is a function from engine state to engine state.
* In namespace `Mem` every object lives in a heap, a list of objects addressed by
  position: creating an object appends it, `push` overwrites the array it is
  applied to, array elements and properties are read from the heap when the
  program reads them, and a method maps a heap to its outcome and the heap it
  leaves.
* Array lengths and the `limit` argument are natural numbers.
* The live count of src/script.js, whose products can go beyond `2^53`, is a
  `JsNumber` and every product is rounded to a double.
-/

set_option autoImplicit false

namespace Combin

/-! ## Data model -/

/-- One entry of `this.lists`: `{ title, items }`. -/
structure ListEntry where
  title : String
  items : List String
  deriving DecidableEq, Repr

/-- The object `this.config`: `{ type, separator, prefix, suffix }`. -/
structure Config where
  type : String
  separator : String
  prefix_ : String
  suffix : String
  deriving DecidableEq, Repr

/-- The argument of `setConfig`: an object holding any subset of the config keys. -/
structure ConfigPatch where
  type : Option String := none
  separator : Option String := none
  prefix_ : Option String := none
  suffix : Option String := none
  deriving DecidableEq, Repr

/-- The state of a `CombinationsEngine` instance. -/
structure Engine where
  lists : List ListEntry
  config : Config
  deriving DecidableEq, Repr

/-- The object returned by `generate` and `generateWithLimit`. -/
structure GenerationResult where
  results : List String
  total : Nat
  truncated : Bool
  truncatedAt : Nat
  deriving DecidableEq, Repr

/-- The exceptions `generate` can raise: `new Error('NO_LISTS')`, and the
`TypeError` of calling `.join` on a value that is a string, not an array. -/
inductive EngineError where
  | noLists
  | typeError
  deriving DecidableEq, Repr

/-- An element of the array `cartesianProduct` returns: an array of strings, or
(when `reduce` hands back its first operand untouched) a bare string. -/
inductive Combo where
  | str (s : String)
  | arr (xs : List String)
  deriving DecidableEq, Repr

/-! ## Strings -/

/-- The characters `String.prototype.trim` strips: ECMAScript WhiteSpace and
LineTerminator code points. -/
def isJsWhiteSpace (c : Char) : Bool :=
  decide (c.toNat ∈ [0x09, 0x0A, 0x0B, 0x0C, 0x0D, 0x20, 0xA0, 0x1680, 0x2028, 0x2029,
    0x202F, 0x205F, 0x3000, 0xFEFF]) || (decide (0x2000 ≤ c.toNat) && decide (c.toNat ≤ 0x200A))

/-- Character-level `trim`: drop white space at both ends. -/
def trimChars (cs : List Char) : List Char :=
  ((cs.dropWhile isJsWhiteSpace).reverse.dropWhile isJsWhiteSpace).reverse

/-- JavaScript `s.trim()`. -/
def trim (s : String) : String := ⟨trimChars s.data⟩

/-- Character-level `split('\n')`: the pieces between line feeds; never empty. -/
def splitLines : List Char → List (List Char)
  | [] => [[]]
  | c :: cs =>
    if c = '\n' then [] :: splitLines cs
    else
      match splitLines cs with
      | [] => [[c]]
      | l :: ls => (c :: l) :: ls

/-- JavaScript `s.split('\n')`. -/
def split (s : String) : List String := (splitLines s.data).map String.mk

/-- JavaScript `xs.join(sep)` on an array of strings. -/
def join (xs : List String) (sep : String) : String := sep.intercalate xs

/-- JavaScript `[...combo]`: an array spreads to its elements, a string to its
code points, each a one-character string. -/
def spread : Combo → List String
  | Combo.str s => s.data.map String.singleton
  | Combo.arr xs => xs

/-! ## The engine -/

/-- The state built by the `constructor`. -/
def constructor : Engine :=
  { lists := [], config := { type := "combinations", separator := " ", prefix_ := "", suffix := "" } }

/-- Method `addList(items, title)`. -/
def addList (e : Engine) (items : String) (title : String := "") : Engine :=
  let cleanItems := ((split items).map trim).filter (fun item => item ≠ "")
  { e with lists := e.lists ++ [{ title := title, items := cleanItems }] }

/-- Method `removeList(index)`; `splice(index, 1)` deletes the element at `index`. -/
def removeList (e : Engine) (index : Int) : Engine :=
  if 0 ≤ index ∧ index < e.lists.length then
    { e with lists := e.lists.eraseIdx index.toNat }
  else e

/-- Method `clearLists()`. -/
def clearLists (e : Engine) : Engine := { e with lists := [] }

/-- Method `setConfig(config)`: the keys present in the argument overwrite the
current ones. -/
def setConfig (e : Engine) (p : ConfigPatch) : Engine :=
  { e with config :=
      { type := p.type.getD e.config.type
        separator := p.separator.getD e.config.separator
        prefix_ := p.prefix_.getD e.config.prefix_
        suffix := p.suffix.getD e.config.suffix } }

/-- Method `cartesianProduct(arrays)`. `reduce` is called without an initial
value, so the accumulator starts as `arrays[0]` (an array of strings) and the
callback runs for `arrays[1..]`. -/
def cartesianProduct (arrays : List (List String)) : List Combo :=
  if arrays.length = 0 then [Combo.arr []]
  else if arrays.any (fun arr => arr.length = 0) then []
  else
    match arrays with
    | [] => [Combo.arr []]
    | first :: rest =>
      rest.foldl
        (fun acc curr =>
          acc.flatMap (fun combo => curr.map (fun item => Combo.arr (spread combo ++ [item]))))
        (first.map Combo.str)

/-- The recursion of `generatePermutations`, indexed by a bound on the depth.
The loop `for i` visits the pairs `(i, arr[i])`; `rest` is
`arr.slice(0, i).concat(arr.slice(i + 1))`. With no depth left the array given is
returned as the only arrangement, which is what the source does for
`arr.length <= 1`, the only case `generatePermutations` reaches it in. -/
def generatePermutationsAux {α : Type} : Nat → List α → List (List α)
  | 0, arr => [arr]
  | fuel + 1, arr =>
    if arr.length ≤ 1 then [arr]
    else
      arr.enum.flatMap (fun ix =>
        (generatePermutationsAux fuel (arr.take ix.1 ++ arr.drop (ix.1 + 1))).map
          (fun perm => ix.2 :: perm))

/-- Method `generatePermutations(arr)`: the recursion depth is the array length. -/
def generatePermutations {α : Type} (arr : List α) : List (List α) :=
  generatePermutationsAux arr.length arr

/-- The callback `combo => prefix + combo.join(separator) + suffix`; a bare
string has no `join` method, so calling it throws a `TypeError`. -/
def formatCombo (c : Config) : Combo → Except EngineError String
  | Combo.str _ => Except.error EngineError.typeError
  | Combo.arr xs => Except.ok (c.prefix_ ++ join xs c.separator ++ c.suffix)

/-- The expression `combinations.map(callback)` where the callback may throw: the first
exception aborts the map. -/
def mapCombos (c : Config) : List Combo → Except EngineError (List String)
  | [] => Except.ok []
  | x :: xs =>
    match formatCombo c x with
    | Except.error err => Except.error err
    | Except.ok s =>
      match mapCombos c xs with
      | Except.error err => Except.error err
      | Except.ok ss => Except.ok (s :: ss)

/-- The array `results` computed by `generate()` once the store is known to be
non-empty. -/
def generateResults (e : Engine) : Except EngineError (List String) :=
  let itemArrays := e.lists.map (fun list => list.items)
  if e.config.type = "combinations" then
    mapCombos e.config (cartesianProduct itemArrays)
  else if e.lists.length = 1 then
    match e.lists with
    | list0 :: _ =>
      Except.ok ((generatePermutations list0.items).map (fun perm =>
        e.config.prefix_ ++ join perm e.config.separator ++ e.config.suffix))
    | [] => Except.ok []
  else
    mapCombos e.config (cartesianProduct itemArrays)

/-- Method `generate()`. -/
def generate (e : Engine) : Except EngineError GenerationResult :=
  if e.lists.length = 0 then Except.error EngineError.noLists
  else
    match generateResults e with
    | Except.error err => Except.error err
    | Except.ok results =>
      Except.ok { results := results, total := results.length, truncated := false, truncatedAt := 0 }

/-- Method `generateWithLimit(limit)`; `slice(0, limit)` keeps the first `limit`
elements. -/
def generateWithLimit (e : Engine) (limit : Nat) : Except EngineError GenerationResult :=
  match generate e with
  | Except.error err => Except.error err
  | Except.ok result =>
    if result.total > limit then
      Except.ok { results := result.results.take limit, total := result.total,
                  truncated := true, truncatedAt := limit }
    else Except.ok result

/-- Reference row-major Cartesian product: one whole item per list, the last
list varying fastest. -/
def rowMajor {α : Type} : List (List α) → List (List α)
  | [] => [[]]
  | l :: ls => l.flatMap (fun x => (rowMajor ls).map (fun t => x :: t))


/-- The strings the specification asks of combinations mode: for each tuple of the
row-major product, `prefix + tuple.join(separator) + suffix`. -/
def combinationsSpec (c : Config) (arrays : List (List String)) : List String :=
  (rowMajor arrays).map (fun t => c.prefix_ ++ join t c.separator ++ c.suffix)

/-- The completion of `removeList(index)`: the method holds no `throw` statement, so
it always completes normally, with the state `removeList` computes. -/
def removeListOutcome (e : Engine) (index : Int) : Except EngineError Engine :=
  Except.ok (removeList e index)

/-- The object `AppConfig.FREE_LIMITS` of src/scripts/config.js. -/
structure FreeLimits where
  LISTS : Nat
  ITEMS_PER_LIST : Nat
  COMBINATIONS : Nat
  deriving DecidableEq, Repr

/-- The values of `AppConfig.FREE_LIMITS`. -/
def FREE_LIMITS : FreeLimits := { LISTS := 3, ITEMS_PER_LIST := 20, COMBINATIONS := 5000 }

/-- The template literal `LIST_${index}_ITEMS_LIMIT_EXCEEDED`. -/
def itemsLimitError (index : Nat) : String :=
  "LIST_" ++ toString index ++ "_ITEMS_LIMIT_EXCEEDED"

/-- Method `validateFreeLimits()`: `errors.push` appends; `forEach` visits the pairs
`(index, list)` in order. -/
def validateFreeLimits (e : Engine) : List String :=
  let errors : List String :=
    if e.lists.length > FREE_LIMITS.LISTS then ["LISTS_LIMIT_EXCEEDED"] else []
  e.lists.enum.foldl
    (fun errors il =>
      if il.2.items.length > FREE_LIMITS.ITEMS_PER_LIST then errors ++ [itemsLimitError il.1]
      else errors)
    errors

/-- The invariant the specification states of a result object:
`items.length == min(total_count, truncated_at if truncated else total_count)`. -/
def resultInvariant (r : GenerationResult) : Prop :=
  r.results.length = min r.total (if r.truncated then r.truncatedAt else r.total)

/-! ## The work done by a call -/

/-- The number of tuples a call of `generate()` holds in `combinations` (or `perms`)
before it formats them: the whole array `cartesianProduct` (or
`generatePermutations`) returns. -/
def tuplesBuilt (e : Engine) : Nat :=
  if e.lists.length = 0 then 0
  else if e.config.type = "combinations" then
    (cartesianProduct (e.lists.map (fun list => list.items))).length
  else if e.lists.length = 1 then
    match e.lists with
    | list0 :: _ => (generatePermutations list0.items).length
    | [] => 0
  else (cartesianProduct (e.lists.map (fun list => list.items))).length

/-- The number of tuples a call of `generateWithLimit(limit)` builds: its first
statement is `const result = this.generate()`, run before `limit` is looked at. -/
def tuplesBuiltWithLimit (e : Engine) (_limit : Nat) : Nat := tuplesBuilt e

/-! ## src/script.js -/

namespace Script

/-- A JavaScript number holding a count: a natural number that is a double, or
`Infinity`, or `NaN`. -/
inductive JsNumber where
  | finite (n : Nat)
  | infinity
  | nan
  deriving DecidableEq, Repr

/-- The double nearest to the natural number `n` (ties to even), `Infinity` from
`2^1024` on: every natural below `2^53` is a double; above, doubles are the
multiples of `2^e` with a 53-bit quotient. -/
def roundToDouble (n : Nat) : JsNumber :=
  if n < 2 ^ 53 then JsNumber.finite n
  else
    let e := Nat.log2 n - 52
    let q := n / 2 ^ e
    let r := n % 2 ^ e
    let q1 := if 2 * r > 2 ^ e ∨ (2 * r = 2 ^ e ∧ q % 2 = 1) then q + 1 else q
    if q1 * 2 ^ e ≥ 2 ^ 1024 then JsNumber.infinity else JsNumber.finite (q1 * 2 ^ e)

/-- JavaScript `x * k` for a count `x` and an array length or loop index `k` (a
natural below `2^53`): the exact product rounded to a double. -/
def jsMul (x : JsNumber) (k : Nat) : JsNumber :=
  match x with
  | JsNumber.finite m => roundToDouble (m * k)
  | JsNumber.infinity => if k = 0 then JsNumber.nan else JsNumber.infinity
  | JsNumber.nan => JsNumber.nan

/-- JavaScript `x > k` for a natural `k` below `2^53`. -/
def jsGt (x : JsNumber) (k : Nat) : Bool :=
  match x with
  | JsNumber.finite m => decide (m > k)
  | JsNumber.infinity => true
  | JsNumber.nan => false

/-- Constant `FREE_TIER_LIST_LIMIT`. -/
def FREE_TIER_LIST_LIMIT : Nat := 3

/-- Constant `FREE_TIER_ITEM_LIMIT_PER_LIST`. -/
def FREE_TIER_ITEM_LIMIT_PER_LIST : Nat := 3

/-- Constant `FREE_TIER_COMBINATION_LIMIT`. -/
def FREE_TIER_COMBINATION_LIMIT : Nat := 18

/-- What `calculateAndDisplayLiveCombinationCount` assigns to
`liveCombinationCountDisplay.textContent`: a literal text, or
`count.toLocaleString()`. -/
inductive Display where
  | text (s : String)
  | localized (count : JsNumber)
  deriving DecidableEq, Repr

/-- Line 108 of `calculateAndDisplayLiveCombinationCount`: the expression
`count === Infinity ? "10,000,000+" : count.toLocaleString()`. -/
def displayCount (count : JsNumber) : Display :=
  if count = JsNumber.infinity then Display.text "10,000,000+" else Display.localized count

/-- Lines 55-69 of `calculateAndDisplayLiveCombinationCount`: the item arrays of the
first `FREE_TIER_LIST_LIMIT` list groups, the groups without a textarea (`none`) and
the arrays with no item being skipped. -/
def potentialLists (textareas : List (Option String)) : List (List String) :=
  (textareas.take (min textareas.length FREE_TIER_LIST_LIMIT)).foldl
    (fun potentialLists textarea =>
      match textarea with
      | none => potentialLists
      | some value =>
        let items := ((Combin.split value).map Combin.trim).filter (fun item => item ≠ "")
        if items.length > 0 then potentialLists ++ [items] else potentialLists)
    []

/-- The loop `for (let i = 2; i <= n; i++)` of the factorial: the indices still to
visit and the current `count`; `break` leaves the loop with `Infinity`. -/
def factorialLoop (n : Nat) : List Nat → JsNumber → JsNumber
  | [], count => count
  | i :: rest, count =>
    if jsGt count 10000000 && decide (i < n) then JsNumber.infinity
    else factorialLoop n rest (jsMul count i)

/-- Lines 76-107 of `calculateAndDisplayLiveCombinationCount`: the variable `count`
computed from `generationType` and `potentialLists`. -/
def liveCount (generationType : String) (potentialLists : List (List String)) : JsNumber :=
  if generationType = "combinations" then
    if potentialLists.any (fun list => list.length = 0) then JsNumber.finite 0
    else potentialLists.foldl (fun acc list => jsMul acc list.length) (JsNumber.finite 1)
  else if potentialLists.length = 1 then
    match potentialLists with
    | list0 :: _ =>
      let n := list0.length
      if n > 0 then factorialLoop n (List.range' 2 (n - 1)) (JsNumber.finite 1)
      else JsNumber.finite 0
    | [] => JsNumber.finite 0
  else if potentialLists.any (fun list => list.length = 0) then JsNumber.finite 0
  else potentialLists.foldl (fun acc list => jsMul acc list.length) (JsNumber.finite 1)

/-- Function `calculateAndDisplayLiveCombinationCount()`, the two display elements
being present: `textareas` holds, for each list group, the value of its textarea
(`none` when the group has no textarea), `generationType` the checked radio value. The
result is the text content given to the live count display. -/
def calculateAndDisplayLiveCombinationCount (textareas : List (Option String))
    (generationType : String) : Display :=
  if textareas.length = 0 then Display.text "0"
  else if (potentialLists textareas).length = 0 then Display.text "0"
  else displayCount (liveCount generationType (potentialLists textareas))

/-- Function `cartesianProduct(arrays)` of src/script.js: the empty arrays are
filtered out and `reduce` starts from `[[]]`; `accArray` is `accItem` when that is
an array and `[accItem]` otherwise. -/
def cartesianProduct (arrays : List (List String)) : List Combo :=
  if arrays.length = 0 then [Combo.arr []]
  else
    let validArrays := arrays.filter (fun arr => arr.length > 0)
    if validArrays.length = 0 then [Combo.arr []]
    else
      validArrays.foldl
        (fun accumulator currentValue =>
          accumulator.flatMap (fun accItem =>
            currentValue.map (fun currItem =>
              let accArray := match accItem with
                | Combo.arr xs => xs
                | Combo.str s => [s]
              Combo.arr (accArray ++ [currItem]))))
        [Combo.arr []]

/-- A `for` loop with a `break` test at the head of each iteration: `stop` is the
test, `body` the rest of the iteration, both on the loop-carried state. -/
def forBreak {α ρ : Type} (stop : ρ → Bool) (body : α → ρ → ρ) : List α → ρ → ρ
  | [], r => r
  | a :: rest, r => if stop r then r else forBreak stop body rest (body a r)

/-- The inner function `permute(currentPermutation, remainingElements)` of
`generatePermutationsSingleList`, as a transformer of the array `result`, indexed by
a bound on the recursion depth (the call tree is as deep as `remainingElements` is
long; with no depth left only the leaf case remains). -/
def permute : Nat → List String → List String → List String → List String
  | 0, currentPermutation, remainingElements, result =>
    if remainingElements.length = 0 then result ++ [join currentPermutation ""] else result
  | fuel + 1, currentPermutation, remainingElements, result =>
    if remainingElements.length = 0 then result ++ [join currentPermutation ""]
    else
      forBreak
        (fun result =>
          decide (result.length ≥ FREE_TIER_COMBINATION_LIMIT * 2)
            && decide (FREE_TIER_COMBINATION_LIMIT > 0))
        (fun ix result =>
          permute fuel (currentPermutation ++ [ix.2])
            (remainingElements.take ix.1 ++ remainingElements.drop (ix.1 + 1)) result)
        remainingElements.enum result

/-- Function `generatePermutationsSingleList(array)`. -/
def generatePermutationsSingleList (array : List String) : List String :=
  permute array.length [] array []

end Script

/-! ## The engine on a heap of mutable objects -/

namespace Mem

/-- A JavaScript value held by a variable, an array slot or a property:
`undefined`, a string, or a reference to an object of the heap. -/
inductive Val where
  | undefined
  | str (s : String)
  | ref (a : Nat)
  deriving DecidableEq, Repr

/-- An object of the heap: an array, a list entry `{ title, items }`, a config
object, an engine `{ lists, config }`, or a result
`{ results, total, truncated, truncatedAt }`. -/
inductive Obj where
  | array (elems : List Val)
  | entry (title : String) (items : Val)
  | config (c : Config)
  | engine (lists : Val) (config : Val)
  | result (results : Val) (total : Nat) (truncated : Bool) (truncatedAt : Nat)
  deriving DecidableEq, Repr

/-- The heap: the objects created so far, an object's reference being its
position. -/
abbrev Heap := List Obj

/-- The object a value refers to. -/
def lookup (h : Heap) (v : Val) : Option Obj :=
  match v with
  | Val.ref a => h[a]?
  | _ => none

/-- Creation of an object (an array literal, an object literal, or the array a
method such as `map`, `slice` or `concat` returns): the heap grows by one object. -/
def alloc (h : Heap) (o : Obj) : Val × Heap := (Val.ref h.length, h ++ [o])

/-- The elements of the array `v` refers to; none when `v` is no array. -/
def elems (h : Heap) (v : Val) : List Val :=
  match lookup h v with
  | some (Obj.array es) => es
  | _ => []

/-- JavaScript `v.push(x)`: the array `v` refers to is changed in place. -/
def push (h : Heap) (v : Val) (x : Val) : Heap :=
  match v with
  | Val.ref a =>
    match h[a]? with
    | some (Obj.array es) => h.set a (Obj.array (es ++ [x]))
    | _ => h
  | _ => h

/-- Property read `list.items`. -/
def itemsOf (h : Heap) (v : Val) : Val :=
  match lookup h v with
  | some (Obj.entry _ items) => items
  | _ => Val.undefined

/-- Property read `this.lists`. -/
def listsOf (h : Heap) (this : Val) : Val :=
  match lookup h this with
  | some (Obj.engine lists _) => lists
  | _ => Val.undefined

/-- Property read `this.config`, down to the four strings it holds (empty when
`this.config` is no config object). -/
def configOf (h : Heap) (this : Val) : Config :=
  match lookup h this with
  | some (Obj.engine _ config) =>
    match lookup h config with
    | some (Obj.config c) => c
    | _ => { type := "", separator := "", prefix_ := "", suffix := "" }
  | _ => { type := "", separator := "", prefix_ := "", suffix := "" }

/-- The string an array element contributes to `join`: itself when it is a string,
nothing when it is `undefined`. Objects do not occur in the arrays `join` is called
on here and are rendered as nothing. -/
def toStr (v : Val) : String :=
  match v with
  | Val.str s => s
  | _ => ""

/-- JavaScript `[...combo]`: the elements of an array, the code points of a
string. -/
def spread (h : Heap) (combo : Val) : List Val :=
  match combo with
  | Val.str s => s.data.map (fun c => Val.str (String.singleton c))
  | _ => elems h combo

/-- Property read `arr[i]`: `undefined` past the end of the array. -/
def index (h : Heap) (arr : Val) (i : Nat) : Val := (elems h arr).getD i Val.undefined

/-- The traversal of `map` and `flatMap` over the indices `js` of `arr`: each
element is read from the heap when its turn comes, and each run of the callback
starts from the heap the previous one left. -/
def traverse {β : Type} (f : Val → Heap → β × Heap) (arr : Val) :
    List Nat → Heap → List β × Heap
  | [], h => ([], h)
  | j :: js, h =>
    let r := f (index h arr j) h
    let rs := traverse f arr js r.2
    (r.1 :: rs.1, rs.2)

/-- JavaScript `arr.map(callback)`: the length is read once, and the results go to a
new array. -/
def arrayMap (f : Val → Heap → Val × Heap) (arr : Val) (h : Heap) : Val × Heap :=
  let r := traverse f arr (List.range (elems h arr).length) h
  alloc r.2 (Obj.array r.1)

/-- What `flatMap` takes from one callback result: the elements, when it is an
array, the value itself otherwise. -/
def flattenOne (h : Heap) (v : Val) : List Val :=
  match lookup h v with
  | some (Obj.array es) => es
  | _ => [v]

/-- JavaScript `arr.flatMap(callback)`: a new array of the elements of the
callback's results. -/
def arrayFlatMap (f : Val → Heap → Val × Heap) (arr : Val) (h : Heap) : Val × Heap :=
  let r := traverse (fun x h => let y := f x h; (flattenOne y.2 y.1, y.2)) arr
    (List.range (elems h arr).length) h
  alloc r.2 (Obj.array r.1.flatten)

/-- JavaScript `arr.forEach(callback)`: the length is read once, each element when
its turn comes; the callback returns nothing and may write to the heap. -/
def forEach (callback : Val → Heap → Heap) (arr : Val) (h : Heap) : Heap :=
  (List.range (elems h arr).length).foldl (fun h j => callback (index h arr j) h) h

/-- The array literal `[...combo, item]`: a new array. -/
def tupleOf (combo : Val) (item : Val) (h : Heap) : Val × Heap :=
  alloc h (Obj.array (spread h combo ++ [item]))

/-- The callback of `reduce`:
`(acc, curr) => acc.flatMap(combo => curr.map(item => [...combo, item]))`, the
accumulator coming with the heap the previous step left. -/
def reduceStep (acc : Val × Heap) (curr : Val) : Val × Heap :=
  arrayFlatMap (fun combo h => arrayMap (tupleOf combo) curr h) acc.1 acc.2

/-- Method `cartesianProduct(arrays)` on the heap: every array literal and every
`map` and `flatMap` creates an array; `reduce`, called without an initial value,
starts from `arrays[0]` itself and runs its callback on `arrays[1]`, `arrays[2]`,
..., each read when its turn comes. -/
def cartesianProduct (arrays : Val) (h : Heap) : Val × Heap :=
  if (elems h arrays).length = 0 then
    let inner := alloc h (Obj.array [])
    alloc inner.2 (Obj.array [inner.1])
  else if (elems h arrays).any (fun arr => (elems h arr).length = 0) then
    alloc h (Obj.array [])
  else
    (List.range ((elems h arrays).length - 1)).foldl
      (fun acc k => reduceStep acc (index acc.2 arrays (k + 1)))
      (index h arrays 0, h)

/-- The callback of `perms.forEach`: `perm => result.push([arr[i], ...perm])`; the
array literal is a new array, `arr[i]` is read when the callback runs, and `push`
writes to `result`. -/
def pushTuple (arr result : Val) (i : Nat) (perm : Val) (h : Heap) : Heap :=
  let tuple := alloc h (Obj.array (index h arr i :: spread h perm))
  push tuple.2 result tuple.1

/-- The body of the loop `for (let i = 0; i < arr.length; i++)`, `recur` being the
recursive call: the two slices and their concatenation are new arrays. -/
def loopBody (recur : Val → Heap → Val × Heap) (arr result : Val) (i : Nat) (h : Heap) :
    Heap :=
  let slice1 := alloc h (Obj.array ((elems h arr).take i))
  let slice2 := alloc slice1.2 (Obj.array ((elems slice1.2 arr).drop (i + 1)))
  let rest := alloc slice2.2 (Obj.array (elems slice2.2 slice1.1 ++ elems slice2.2 slice2.1))
  let perms := recur rest.1 rest.2
  forEach (pushTuple arr result i) perms.1 perms.2

/-- The loop `for (let i = ...; i < arr.length; i++) body`, from the index `i` on:
`arr.length` is read before every iteration. `fuel` bounds the number of
iterations. -/
def forLoop (body : Nat → Heap → Heap) (arr : Val) : Nat → Nat → Heap → Heap
  | 0, _, h => h
  | fuel + 1, i, h =>
    if i < (elems h arr).length then forLoop body arr fuel (i + 1) (body i h) else h

/-- The recursion of `generatePermutations` on the heap, indexed by a bound on the
depth as in the value-level model. `result` is a new array, the only object the
method writes to; `[arr]` is a new array holding a reference to `arr` itself. The
loop is given `arr.length` iterations, which is what it takes when `arr` keeps its
length. -/
def generatePermutationsAux : Nat → Val → Heap → Val × Heap
  | 0, arr, h => alloc h (Obj.array [arr])
  | fuel + 1, arr, h =>
    if (elems h arr).length ≤ 1 then alloc h (Obj.array [arr])
    else
      let result := alloc h (Obj.array [])
      (result.1,
        forLoop (loopBody (generatePermutationsAux fuel) arr result.1) arr
          (elems h arr).length 0 result.2)

/-- Method `generatePermutations(arr)` on the heap. -/
def generatePermutations (arr : Val) (h : Heap) : Val × Heap :=
  generatePermutationsAux (elems h arr).length arr h

/-- The call `combo.join(separator)`: a `TypeError` when `combo` is no array. -/
def joinArray (h : Heap) (combo : Val) (sep : String) : Except EngineError String :=
  match lookup h combo with
  | some (Obj.array es) => Except.ok (join (es.map toStr) sep)
  | _ => Except.error EngineError.typeError

/-- The callbacks of `combinations.map(...)` and `perms.map(...)` run in order; they
create no object, and the first exception ends the traversal. -/
def formatEach (h : Heap) (c : Config) : List Val → Except EngineError (List String)
  | [] => Except.ok []
  | x :: xs =>
    match joinArray h x c.separator with
    | Except.error err => Except.error err
    | Except.ok s =>
      match formatEach h c xs with
      | Except.error err => Except.error err
      | Except.ok ss => Except.ok ((c.prefix_ ++ s ++ c.suffix) :: ss)

/-- The end of `generate()`: `results = tuples.map(...)`, a new array of strings,
and the object literal returned. When a callback throws, the array `map` was
filling is lost with the call and is not kept in the heap. -/
def finish (c : Config) (tuples : Val) (h : Heap) : Except EngineError Val × Heap :=
  match formatEach h c (elems h tuples) with
  | Except.error err => (Except.error err, h)
  | Except.ok ss =>
    let results := alloc h (Obj.array (ss.map Val.str))
    let result := alloc results.2 (Obj.result results.1 ss.length false 0)
    (Except.ok result.1, result.2)

/-- Method `generate()` on the heap, `this` being the engine object: the outcome
(the reference of the result object, or the exception) and the heap the call
leaves. `this.lists.map(...)` and `let results = []` create arrays; the exception
itself is not kept as an object. -/
def generate (this : Val) (h : Heap) : Except EngineError Val × Heap :=
  if (elems h (listsOf h this)).length = 0 then (Except.error EngineError.noLists, h)
  else
    let itemArrays := arrayMap (fun list h => (itemsOf h list, h)) (listsOf h this) h
    let initial := alloc itemArrays.2 (Obj.array [])
    if (configOf initial.2 this).type = "combinations" then
      let combinations := cartesianProduct itemArrays.1 initial.2
      finish (configOf combinations.2 this) combinations.1 combinations.2
    else if (elems initial.2 (listsOf initial.2 this)).length = 1 then
      let list0 := index initial.2 (listsOf initial.2 this) 0
      let perms := generatePermutations (itemsOf initial.2 list0) initial.2
      finish (configOf perms.2 this) perms.1 perms.2
    else
      let combinations := cartesianProduct itemArrays.1 initial.2
      finish (configOf combinations.2 this) combinations.1 combinations.2

/-- Method `generateWithLimit(limit)` on the heap; `slice` and the object literal
create objects. -/
def generateWithLimit (this : Val) (limit : Nat) (h : Heap) : Except EngineError Val × Heap :=
  let r := generate this h
  match r.1 with
  | Except.error err => (Except.error err, r.2)
  | Except.ok result =>
    match lookup r.2 result with
    | some (Obj.result results total _ _) =>
      if total > limit then
        let sliced := alloc r.2 (Obj.array ((elems r.2 results).take limit))
        let truncatedResult := alloc sliced.2 (Obj.result sliced.1 total true limit)
        (Except.ok truncatedResult.1, truncatedResult.2)
      else (Except.ok result, r.2)
    | _ => (Except.ok result, r.2)

/-- The result object an outcome refers to, read as a value: the strings of its
`results` array and its three other properties. -/
def readOutcome (h : Heap) (outcome : Except EngineError Val) :
    Option (Except EngineError GenerationResult) :=
  match outcome with
  | Except.error err => some (Except.error err)
  | Except.ok v =>
    match lookup h v with
    | some (Obj.result results total truncated truncatedAt) =>
      some (Except.ok { results := (elems h results).map toStr, total := total,
                        truncated := truncated, truncatedAt := truncatedAt })
    | _ => none

/-- The heap holds, at `this`, an engine whose lists and config are those of `e`:
`this.lists` is an array of entries, each with its title and an `items` array of
strings, and `this.config` is a config object. -/
def Represents (h : Heap) (this : Val) (e : Engine) : Prop :=
  ∃ listsV configV entryVs,
    lookup h this = some (Obj.engine listsV configV)
    ∧ lookup h configV = some (Obj.config e.config)
    ∧ lookup h listsV = some (Obj.array entryVs)
    ∧ List.Forall₂
        (fun v (l : ListEntry) => ∃ itemsV,
          lookup h v = some (Obj.entry l.title itemsV)
          ∧ lookup h itemsV = some (Obj.array (l.items.map Val.str)))
        entryVs e.lists

/-- The value `v` is, in the heap `h`, the element `c` of a Cartesian product: the
bare string itself, or a reference to an array holding the strings of the tuple. -/
def AbsCombo (h : Heap) (v : Val) (c : Combo) : Prop :=
  match c with
  | Combo.str s => v = Val.str s
  | Combo.arr xs => lookup h v = some (Obj.array (xs.map Val.str))

/-- The heap `h2` is `h` grown, with no object of `h` changed except the one at
`r`. -/
def SameExcept (r : Nat) (h h2 : Heap) : Prop :=
  h.length ≤ h2.length ∧ ∀ a, a ≠ r → a < h.length → h2[a]? = h[a]?

/-- The engine state with the one list `x`, `y`, `z` and the type
`'permutations'`. -/
def sampleEngine : Engine :=
  { lists := [{ title := "", items := ["x", "y", "z"] }],
    config := { type := "permutations", separator := " ", prefix_ := "", suffix := "" } }

/-- A heap holding `sampleEngine` at address 4: the `items` array, the entry, the
`lists` array, the config object and the engine object. -/
def sampleHeap : Heap :=
  [Obj.array [Val.str "x", Val.str "y", Val.str "z"],
   Obj.entry "" (Val.ref 0),
   Obj.array [Val.ref 1],
   Obj.config { type := "permutations", separator := " ", prefix_ := "", suffix := "" },
   Obj.engine (Val.ref 2) (Val.ref 3)]

end Mem

/-! ## Basic facts about `generate` -/

theorem generate_ok_fields {e : Engine} {r : GenerationResult} (h : generate e = Except.ok r) :
    r.total = r.results.length ∧ r.truncated = false ∧ r.truncatedAt = 0 := by
  unfold generate at h
  split at h
  · cases h
  · split at h
    · cases h
    · cases h
      exact ⟨rfl, rfl, rfl⟩

theorem mapCombos_error {c : Config} {xs : List Combo} {err : EngineError}
    (h : mapCombos c xs = Except.error err) : err = EngineError.typeError := by
  induction xs with
  | nil => cases h
  | cons x xs ih =>
    unfold mapCombos at h
    cases x with
    | str s =>
      simp only [formatCombo] at h
      cases h
      rfl
    | arr ys =>
      simp only [formatCombo] at h
      split at h
      · rename_i err2 h2
        cases h
        exact ih h2
      · cases h

theorem generateResults_error {e : Engine} {err : EngineError}
    (h : generateResults e = Except.error err) : err = EngineError.typeError := by
  unfold generateResults at h
  simp only at h
  split at h
  · exact mapCombos_error h
  · split at h
    · split at h
      · cases h
      · cases h
    · exact mapCombos_error h

/-! ## Permutations -/

section Permutations

variable {α β : Type}

theorem enum_index_lt {arr : List α} {ix : Nat × α} (h : ix ∈ arr.enum) :
    ix.1 < arr.length := by
  rw [List.mem_enum_iff_getElem?] at h
  exact (List.getElem?_eq_some_iff.mp h).1

theorem rest_length {arr : List α} {ix : Nat × α} (h : ix ∈ arr.enum) :
    (arr.take ix.1 ++ arr.drop (ix.1 + 1)).length + 1 = arr.length := by
  have hlt := enum_index_lt h
  rw [← List.eraseIdx_eq_take_drop_succ, List.length_eraseIdx, if_pos hlt]
  omega

theorem perm_cons_rest {arr : List α} {ix : Nat × α} (h : ix ∈ arr.enum) :
    (ix.2 :: (arr.take ix.1 ++ arr.drop (ix.1 + 1))).Perm arr := by
  rw [List.mem_enum_iff_getElem?] at h
  obtain ⟨hlt, hget⟩ := List.getElem?_eq_some_iff.mp h
  have hsplit : arr = arr.take ix.1 ++ ix.2 :: arr.drop (ix.1 + 1) := by
    rw [← hget, List.getElem_cons_drop, List.take_append_drop]
  exact (List.perm_middle.symm.trans (List.Perm.of_eq hsplit.symm))

/-- The recursion equation of the source: `[arr]` when `arr.length <= 1`, otherwise
for each index `i` the arrangements of `rest`, each with `arr[i]` put in front. -/
theorem generatePermutations_unfold (arr : List α) :
    generatePermutations arr =
      if arr.length ≤ 1 then [arr]
      else arr.enum.flatMap (fun ix =>
        (generatePermutations (arr.take ix.1 ++ arr.drop (ix.1 + 1))).map
          (fun perm => ix.2 :: perm)) := by
  unfold generatePermutations
  generalize hn : arr.length = n
  cases n with
  | zero => simp [generatePermutationsAux]
  | succ m =>
    rw [generatePermutationsAux, hn]
    split
    · rfl
    · apply List.flatMap_congr
      intro ix hix
      have := rest_length hix
      have hlen : (arr.take ix.1 ++ arr.drop (ix.1 + 1)).length = m := by omega
      rw [hlen]

theorem generatePermutations_length_aux (n : Nat) :
    ∀ arr : List α, arr.length = n → (generatePermutations arr).length = n.factorial := by
  induction n with
  | zero =>
    intro arr h
    rw [generatePermutations_unfold, if_pos (by omega)]
    rfl
  | succ m ih =>
    intro arr h
    rw [generatePermutations_unfold]
    split
    · have hm : m = 0 := by omega
      subst hm
      rfl
    · rw [List.length_flatMap]
      have hconst : List.map (List.length ∘ fun ix : Nat × α =>
          (generatePermutations (arr.take ix.1 ++ arr.drop (ix.1 + 1))).map
            (fun perm => ix.2 :: perm)) arr.enum
          = List.map (Function.const _ m.factorial) arr.enum := by
        apply List.map_congr_left
        intro ix hix
        have := rest_length hix
        simp only [Function.comp_apply, List.length_map]
        exact ih _ (by omega)
      rw [hconst, List.map_const, List.sum_replicate, List.enum_length, h, smul_eq_mul,
        Nat.factorial_succ]

theorem generatePermutations_perm_aux (n : Nat) :
    ∀ arr : List α, arr.length = n → ∀ p ∈ generatePermutations arr, p.Perm arr := by
  induction n with
  | zero =>
    intro arr h p hp
    rw [generatePermutations_unfold, if_pos (by omega)] at hp
    rw [List.mem_singleton.mp hp]
  | succ m ih =>
    intro arr h p hp
    rw [generatePermutations_unfold] at hp
    split at hp
    · rw [List.mem_singleton.mp hp]
    · rw [List.mem_flatMap] at hp
      obtain ⟨ix, hix, hp⟩ := hp
      rw [List.mem_map] at hp
      obtain ⟨q, hq, rfl⟩ := hp
      have := rest_length hix
      have hq2 := ih _ (by omega) q hq
      exact (List.Perm.cons ix.2 hq2).trans (perm_cons_rest hix)

theorem generatePermutations_nodup_aux (n : Nat) :
    ∀ arr : List α, arr.length = n → arr.Nodup → (generatePermutations arr).Nodup := by
  induction n with
  | zero =>
    intro arr h _
    rw [generatePermutations_unfold, if_pos (by omega)]
    exact List.nodup_singleton _
  | succ m ih =>
    intro arr h hnd
    rw [generatePermutations_unfold]
    split
    · exact List.nodup_singleton _
    · rw [List.nodup_flatMap]
      constructor
      · intro ix hix
        have := rest_length hix
        apply List.Nodup.map
        · intro a b hab
          exact List.tail_eq_of_cons_eq hab
        · apply ih _ (by omega)
          rw [← List.eraseIdx_eq_take_drop_succ]
          exact List.Nodup.sublist (List.eraseIdx_sublist _ _) hnd
      · have hpair : List.Pairwise (fun a b : Nat × α => a.2 ≠ b.2) arr.enum := by
          have h2 : List.Pairwise (fun a b : α => a ≠ b) (arr.enum.map Prod.snd) := by
            rw [List.enum_map_snd]
            exact hnd
          exact List.pairwise_map.mp h2
        refine List.Pairwise.imp ?_ hpair
        intro a b hab
        show List.Disjoint _ _
        intro p hpa hpb
        rw [List.mem_map] at hpa hpb
        obtain ⟨q, _, rfl⟩ := hpa
        obtain ⟨q2, _, heq⟩ := hpb
        exact hab (List.head_eq_of_cons_eq heq).symm

theorem generatePermutations_map_aux (f : α → β) (n : Nat) :
    ∀ arr : List α, arr.length = n →
      generatePermutations (arr.map f) = (generatePermutations arr).map (List.map f) := by
  induction n with
  | zero =>
    intro arr h
    rw [generatePermutations_unfold, generatePermutations_unfold arr, List.length_map,
      if_pos (by omega), if_pos (by omega)]
    rfl
  | succ m ih =>
    intro arr h
    rw [generatePermutations_unfold, generatePermutations_unfold arr, List.length_map]
    split
    · rfl
    · rw [List.enum_map, List.flatMap_map, List.map_flatMap]
      apply List.flatMap_congr
      intro ix hix
      have := rest_length hix
      simp only [Prod.map_fst, Prod.map_snd, id_eq, List.map_map]
      rw [← List.map_take, ← List.map_drop, ← List.map_append, ih _ (by omega), List.map_map]
      rfl

end Permutations

/-! ## Claims -/

/-- C3. With lists `["a","b"]` and `["1","2"]` added in that order, mode
combinations, separator `"-"`, empty prefix and suffix, `generateWithLimit(limit)`
returns `["a-1","a-2","b-1","b-2"]`, total 4, not truncated, for every `limit >= 4`. -/
theorem generateWithLimit_scenario_two_lists (limit : Nat) (h : 4 ≤ limit) :
    generateWithLimit
        (setConfig (addList (addList constructor "a\nb") "1\n2")
          { type := some "combinations", separator := some "-", prefix_ := some "",
            suffix := some "" })
        limit
      = Except.ok { results := ["a-1", "a-2", "b-1", "b-2"], total := 4, truncated := false,
                    truncatedAt := 0 } := by
  have hg : generate
        (setConfig (addList (addList constructor "a\nb") "1\n2")
          { type := some "combinations", separator := some "-", prefix_ := some "",
            suffix := some "" })
      = Except.ok { results := ["a-1", "a-2", "b-1", "b-2"], total := 4, truncated := false,
                    truncatedAt := 0 } := rfl
  unfold generateWithLimit
  rw [hg]
  simp only
  rw [if_neg (by omega)]

/-- C3 witness: the scenario at `limit = 4`. -/
theorem generateWithLimit_scenario_two_lists_witness :
    4 ≤ 4 ∧
    generateWithLimit
        (setConfig (addList (addList constructor "a\nb") "1\n2")
          { type := some "combinations", separator := some "-", prefix_ := some "",
            suffix := some "" })
        4
      = Except.ok { results := ["a-1", "a-2", "b-1", "b-2"], total := 4, truncated := false,
                    truncatedAt := 0 } :=
  ⟨by decide, generateWithLimit_scenario_two_lists 4 (by decide)⟩

/-- C1 (code defect). With lists `["ab"]` and `["1"]` and separator `"-"`,
`generate()` in combinations mode returns `"a-b-1"`: the first list's item is split
into its characters, whereas the claimed result keeps it whole, `"ab-1"`. -/
theorem generate_splits_first_list_item :
    generate (addList (addList (setConfig constructor { separator := some "-" }) "ab") "1")
      = Except.ok { results := ["a-b-1"], total := 1, truncated := false, truncatedAt := 0 }
    ∧ combinationsSpec { type := "combinations", separator := "-", prefix_ := "", suffix := "" }
        [["ab"], ["1"]] = ["ab-1"] :=
  ⟨rfl, rfl⟩

/-- C2 (code defect). On the lists `[a1,a2]`, `[b1]`, `[c1,c2]`, `cartesianProduct`
returns tuples of four elements, the first list's items being spread into
characters, whereas the row-major product has tuples of one element per list. -/
theorem cartesianProduct_spreads_first_list :
    cartesianProduct [["a1", "a2"], ["b1"], ["c1", "c2"]]
      = [Combo.arr ["a", "1", "b1", "c1"], Combo.arr ["a", "1", "b1", "c2"],
         Combo.arr ["a", "2", "b1", "c1"], Combo.arr ["a", "2", "b1", "c2"]]
    ∧ rowMajor [["a1", "a2"], ["b1"], ["c1", "c2"]]
      = [["a1", "b1", "c1"], ["a1", "b1", "c2"], ["a2", "b1", "c1"], ["a2", "b1", "c2"]] :=
  ⟨rfl, rfl⟩

/-- C4 (code defect). With the single list `["x","y"]`, `generate()` in combinations
mode throws a `TypeError` instead of returning the two results `"x"` and `"y"`:
`cartesianProduct` hands back the bare strings and `.join` is not defined on them. -/
theorem generate_single_list_throws :
    cartesianProduct [["x", "y"]] = [Combo.str "x", Combo.str "y"]
    ∧ generate (addList constructor "x\ny") = Except.error EngineError.typeError
    ∧ combinationsSpec constructor.config [["x", "y"]] = ["x", "y"] :=
  ⟨rfl, rfl, rfl⟩

/-- C7. Whenever `generate()` succeeds with a total above `limit`,
`generateWithLimit(limit)` returns exactly `limit` results, with `truncated` true and
`truncatedAt` equal to `limit`. -/
theorem generateWithLimit_truncates (e : Engine) (limit : Nat) (r0 : GenerationResult)
    (hgen : generate e = Except.ok r0) (hlt : limit < r0.total) :
    ∃ r, generateWithLimit e limit = Except.ok r ∧ r.results.length = limit ∧
      r.truncated = true ∧ r.truncatedAt = limit := by
  obtain ⟨htot, -, -⟩ := generate_ok_fields hgen
  refine ⟨{ results := r0.results.take limit, total := r0.total, truncated := true,
            truncatedAt := limit }, ?_, ?_, rfl, rfl⟩
  · unfold generateWithLimit
    rw [hgen]
    simp only
    rw [if_pos hlt]
  · simp only [List.length_take]
    omega

/-- C7 witness: three lists of two items, limit 5 (the true count is 8). -/
theorem generateWithLimit_truncates_witness :
    ∃ r, generateWithLimit (addList (addList (addList constructor "a\nb") "1\n2") "x\ny") 5
        = Except.ok r ∧ r.results.length = 5 ∧ r.truncated = true ∧ r.truncatedAt = 5 :=
  generateWithLimit_truncates (addList (addList (addList constructor "a\nb") "1\n2") "x\ny") 5
    { results := ["a 1 x", "a 1 y", "a 2 x", "a 2 y", "b 1 x", "b 1 y", "b 2 x", "b 2 y"],
      total := 8, truncated := false, truncatedAt := 0 }
    rfl (by decide)

/-- C8. Whenever `generate()` succeeds with result `r0`, its `total` `N` is the number
of its results, and `generateWithLimit(limit)` returns the first `min(limit, N)` of
them, in order, with the same `total`. -/
theorem generateWithLimit_prefix (e : Engine) (limit : Nat) (r0 : GenerationResult)
    (hgen : generate e = Except.ok r0) :
    r0.total = r0.results.length ∧
    ∃ r, generateWithLimit e limit = Except.ok r ∧
      r.results = r0.results.take (min limit r0.total) ∧ r.total = r0.total := by
  obtain ⟨htot, -, -⟩ := generate_ok_fields hgen
  refine ⟨htot, ?_⟩
  unfold generateWithLimit
  rw [hgen]
  simp only
  by_cases hlt : r0.total > limit
  · rw [if_pos hlt]
    refine ⟨_, rfl, ?_, rfl⟩
    simp only
    rw [Nat.min_eq_left (Nat.le_of_lt hlt)]
  · rw [if_neg hlt]
    refine ⟨_, rfl, ?_, rfl⟩
    rw [Nat.min_eq_right (Nat.le_of_not_lt hlt), htot, List.take_length]

/-- C8 witness: three lists of two items, limit 3. -/
theorem generateWithLimit_prefix_witness :
    (8 : Nat) = ["a 1 x", "a 1 y", "a 2 x", "a 2 y", "b 1 x", "b 1 y", "b 2 x", "b 2 y"].length ∧
    ∃ r, generateWithLimit (addList (addList (addList constructor "a\nb") "1\n2") "x\ny") 3
        = Except.ok r ∧
      r.results = ["a 1 x", "a 1 y", "a 2 x", "a 2 y", "b 1 x", "b 1 y", "b 2 x", "b 2 y"].take
        (min 3 8) ∧ r.total = 8 :=
  generateWithLimit_prefix (addList (addList (addList constructor "a\nb") "1\n2") "x\ny") 3
    { results := ["a 1 x", "a 1 y", "a 2 x", "a 2 y", "b 1 x", "b 1 y", "b 2 x", "b 2 y"],
      total := 8, truncated := false, truncatedAt := 0 }
    rfl

theorem cartesianProduct_of_empty_member {arrays : List (List String)}
    (h : ∃ a ∈ arrays, a = []) : cartesianProduct arrays = [] := by
  obtain ⟨a, ha, hnil⟩ := h
  unfold cartesianProduct
  have hlen : arrays.length ≠ 0 := by
    intro h0
    rw [List.length_eq_zero] at h0
    rw [h0] at ha
    cases ha
  rw [if_neg hlen]
  have hany : (arrays.any fun arr => decide (arr.length = 0)) = true := by
    rw [List.any_eq_true]
    exact ⟨a, ha, by simp [hnil]⟩
  rw [if_pos hany]

/-- C9 counterexample: in permutations mode, a store holding one list with zero items
yields one result (the empty string under the default config), not zero results. -/
theorem generate_single_empty_list_permutations :
    generate (setConfig (addList constructor " \n") { type := some "permutations" })
      = Except.ok { results := [""], total := 1, truncated := false, truncatedAt := 0 }
    ∧ (addList constructor " \n").lists = [{ title := "", items := [] }] :=
  ⟨rfl, rfl⟩

/-- C9 (amended). If some stored list has zero items, `generate()` returns zero
results in combinations mode, and in permutations mode when the store holds a number
of lists other than one. -/
theorem generate_empty_list (e : Engine) (hempty : ∃ l ∈ e.lists, l.items = [])
    (hmode : e.config.type = "combinations" ∨ e.lists.length ≠ 1) :
    generate e = Except.ok { results := [], total := 0, truncated := false, truncatedAt := 0 } := by
  obtain ⟨l, hl, hnil⟩ := hempty
  have hlen : e.lists.length ≠ 0 := by
    intro h0
    rw [List.length_eq_zero] at h0
    rw [h0] at hl
    cases hl
  have hcp : cartesianProduct (e.lists.map fun list => list.items) = [] :=
    cartesianProduct_of_empty_member ⟨l.items, List.mem_map_of_mem _ hl, hnil⟩
  have hres : generateResults e = Except.ok [] := by
    unfold generateResults
    simp only [hcp]
    rcases hmode with hc | hn
    · rw [if_pos hc]
      rfl
    · by_cases hc : e.config.type = "combinations"
      · rw [if_pos hc]
        rfl
      · rw [if_neg hc, if_neg hn]
        rfl
  unfold generate
  rw [if_neg hlen, hres]
  rfl

/-- C9 witness: lists `["a","b"]` and `[]` in combinations mode. -/
theorem generate_empty_list_witness :
    (∃ l ∈ (addList (addList constructor "a\nb") "").lists, l.items = []) ∧
    generate (addList (addList constructor "a\nb") "")
      = Except.ok { results := [], total := 0, truncated := false, truncatedAt := 0 } :=
  ⟨⟨{ title := "", items := [] }, by decide, rfl⟩,
   generate_empty_list (addList (addList constructor "a\nb") "")
     ⟨{ title := "", items := [] }, by decide, rfl⟩ (Or.inl rfl)⟩

/-- C10 counterexample: a store holding a single list with zero items does not make
`generate()` throw `NO_LISTS`; in combinations mode it returns zero results. -/
theorem generate_empty_list_no_throw :
    generate (addList constructor "")
      = Except.ok { results := [], total := 0, truncated := false, truncatedAt := 0 }
    ∧ generate (addList constructor "") ≠ Except.error EngineError.noLists := by
  refine ⟨rfl, ?_⟩
  intro h
  cases h

/-- C10 (amended). `generate()` throws `NO_LISTS` exactly when the store has zero
lists. -/
theorem generate_noLists_iff (e : Engine) :
    generate e = Except.error EngineError.noLists ↔ e.lists = [] := by
  constructor
  · intro h
    by_contra hne
    have hlen : e.lists.length ≠ 0 := fun h0 => hne (List.length_eq_zero.mp h0)
    unfold generate at h
    rw [if_neg hlen] at h
    split at h
    · rename_i err herr
      have := generateResults_error herr
      rw [this] at h
      cases h
    · cases h
  · intro h
    unfold generate
    rw [h]
    rfl

/-- C5. For every list of `n` items, `generatePermutations` returns `n!` arrangements.
Run on the positions `0, ..., n-1` it returns `n!` pairwise distinct index sequences,
each a rearrangement of all the positions, and the arrangements of the list are these
index sequences with every position replaced by the item it holds, in the same
order. -/
theorem generatePermutations_by_position {α : Type} (arr : List α) :
    (generatePermutations arr).length = arr.length.factorial
    ∧ (generatePermutations (List.finRange arr.length)).length = arr.length.factorial
    ∧ (generatePermutations (List.finRange arr.length)).Nodup
    ∧ (∀ p ∈ generatePermutations (List.finRange arr.length),
        p.Perm (List.finRange arr.length))
    ∧ generatePermutations arr
        = (generatePermutations (List.finRange arr.length)).map (fun p => p.map arr.get) := by
  refine ⟨generatePermutations_length_aux _ arr rfl, ?_, ?_, ?_, ?_⟩
  · have := generatePermutations_length_aux _ (List.finRange arr.length) rfl
    rw [List.length_finRange] at this
    exact this
  · exact generatePermutations_nodup_aux _ _ rfl (List.nodup_finRange _)
  · exact generatePermutations_perm_aux _ _ rfl
  · rw [← generatePermutations_map_aux arr.get _ _ rfl, List.finRange_map_get]

/-- C6 counterexample: a fresh engine holding the list x, y, z, switched to
permutations, returns six results joined by the default separator (a space); neither
`"xyz"` nor `"zyx"` is among them. -/
theorem generate_permutations_uses_separator :
    generateWithLimit (setConfig (addList constructor "x\ny\nz") { type := some "permutations" })
        100
      = Except.ok { results := ["x y z", "x z y", "y x z", "y z x", "z x y", "z y x"],
                    total := 6, truncated := false, truncatedAt := 0 }
    ∧ "xyz" ∉ ["x y z", "x z y", "y x z", "y z x", "z x y", "z y x"]
    ∧ "zyx" ∉ ["x y z", "x z y", "y x z", "y z x", "z x y", "z y x"] :=
  ⟨rfl, by decide, by decide⟩

/-- C6 (amended). In permutations mode with a single list, the results of
`generate()` are, for each arrangement of the items, prefix + the arranged items
joined by the configured separator + suffix; in particular a fresh engine holding
x, y, z, switched to permutations and run with `generateWithLimit(100)`, returns six
results that include `"x y z"` and `"z y x"`. -/
theorem generate_permutations_single_list (e : Engine) (l : ListEntry)
    (hlists : e.lists = [l]) (hmode : e.config.type ≠ "combinations") :
    generate e = Except.ok
        { results := (generatePermutations l.items).map (fun perm =>
            e.config.prefix_ ++ join perm e.config.separator ++ e.config.suffix),
          total := (generatePermutations l.items).length,
          truncated := false, truncatedAt := 0 }
    ∧ generateWithLimit
          (setConfig (addList constructor "x\ny\nz") { type := some "permutations" }) 100
        = Except.ok { results := ["x y z", "x z y", "y x z", "y z x", "z x y", "z y x"],
                      total := 6, truncated := false, truncatedAt := 0 } := by
  refine ⟨?_, rfl⟩
  unfold generate generateResults
  simp only [hlists, List.length_singleton, if_neg hmode, if_true, List.length_map]
  rfl

/-- C6 witness: the list x, y, z with separator `"-"`, prefix `"<"` and suffix `">"`. -/
theorem generate_permutations_single_list_witness :
    generate (setConfig (addList constructor "x\ny\nz")
        { type := some "permutations", separator := some "-", prefix_ := some "<",
          suffix := some ">" })
      = Except.ok { results := ["<x-y-z>", "<x-z-y>", "<y-x-z>", "<y-z-x>", "<z-x-y>", "<z-y-x>"],
                    total := 6, truncated := false, truncatedAt := 0 } :=
  (generate_permutations_single_list
    (setConfig (addList constructor "x\ny\nz")
        { type := some "permutations", separator := some "-", prefix_ := some "<",
          suffix := some ">" })
    { title := "", items := ["x", "y", "z"] } rfl (by decide)).1

theorem formatCombo_congr {c d : Config} (hsep : c.separator = d.separator)
    (hpre : c.prefix_ = d.prefix_) (hsuf : c.suffix = d.suffix) (x : Combo) :
    formatCombo c x = formatCombo d x := by
  cases x with
  | str s => rfl
  | arr xs => simp only [formatCombo, hsep, hpre, hsuf]

theorem mapCombos_congr {c d : Config} (hsep : c.separator = d.separator)
    (hpre : c.prefix_ = d.prefix_) (hsuf : c.suffix = d.suffix) (xs : List Combo) :
    mapCombos c xs = mapCombos d xs := by
  induction xs with
  | nil => rfl
  | cons x xs ih =>
    simp only [mapCombos, formatCombo_congr hsep hpre hsuf x, ih]

/-- C11. For every store of two or more lists, `generate()` with type
`'permutations'` returns exactly what it returns with type `'combinations'` (the same
result object, or the same exception), the other config keys being equal. -/
theorem generate_permutations_falls_back (e : Engine) (h : 2 ≤ e.lists.length) :
    generate (setConfig e { type := some "permutations" })
      = generate (setConfig e { type := some "combinations" }) := by
  have h1 : e.lists.length ≠ 1 := by omega
  have hres : generateResults (setConfig e { type := some "permutations" })
      = generateResults (setConfig e { type := some "combinations" }) := by
    unfold generateResults setConfig
    simp only [Option.getD_some, Option.getD_none, if_true]
    rw [if_neg (by decide), if_neg h1]
    apply mapCombos_congr <;> rfl
  unfold generate
  rw [hres]
  rfl

/-- C11 witness: lists `["ab","c"]` and `["1","2"]`. -/
theorem generate_permutations_falls_back_witness :
    2 ≤ (addList (addList constructor "ab\nc") "1\n2").lists.length ∧
    generate (setConfig (addList (addList constructor "ab\nc") "1\n2")
        { type := some "permutations" })
      = generate (setConfig (addList (addList constructor "ab\nc") "1\n2")
        { type := some "combinations" }) :=
  ⟨by decide, generate_permutations_falls_back _ (by decide)⟩

theorem length_product_step (acc : List Combo) (curr : List String) :
    (acc.flatMap (fun combo =>
        curr.map (fun item => Combo.arr (spread combo ++ [item])))).length
      = acc.length * curr.length := by
  induction acc with
  | nil => simp
  | cons a as ih =>
    rw [List.flatMap_cons, List.length_append, ih, List.length_map, List.length_cons]
    ring

theorem length_product_foldl (rest : List (List String)) :
    ∀ acc : List Combo,
      (rest.foldl
        (fun acc curr =>
          acc.flatMap (fun combo => curr.map (fun item => Combo.arr (spread combo ++ [item]))))
        acc).length = acc.length * (rest.map List.length).prod := by
  induction rest with
  | nil =>
    intro acc
    simp
  | cons curr rest ih =>
    intro acc
    rw [List.foldl_cons, ih, length_product_step, List.map_cons, List.prod_cons]
    ring

/-- C12. The number of elements `cartesianProduct` returns is the product of the
sizes of the input lists: for every sequence of lists, in particular for every
sequence of `n >= 1` non-empty lists of sizes `s1, ..., sn`. -/
theorem cartesianProduct_length (arrays : List (List String)) :
    (cartesianProduct arrays).length = (arrays.map List.length).prod := by
  unfold cartesianProduct
  split
  · rename_i h0
    rw [List.length_eq_zero.mp h0]
    rfl
  · split
    · rename_i hany
      rw [List.any_eq_true] at hany
      obtain ⟨a, ha, hlen⟩ := hany
      have hz : (0 : Nat) ∈ arrays.map List.length := by
        rw [List.mem_map]
        exact ⟨a, ha, by simpa using hlen⟩
      rw [List.prod_eq_zero hz]
      rfl
    · cases arrays with
      | nil => rfl
      | cons first rest =>
        simp only
        rw [length_product_foldl, List.length_map, List.map_cons, List.prod_cons]

/-- C13. For every sequence of lists holding an empty list, `cartesianProduct`
returns the empty array, not the array holding the single empty tuple. -/
theorem cartesianProduct_empty_list (arrays : List (List String))
    (h : ∃ a ∈ arrays, a = []) :
    cartesianProduct arrays = [] ∧ cartesianProduct arrays ≠ [Combo.arr []] := by
  have hnil := cartesianProduct_of_empty_member h
  refine ⟨hnil, ?_⟩
  rw [hnil]
  intro hcontra
  cases hcontra

/-- C13 witness: the lists `["a","b"]`, `[]`, `["c"]`. -/
theorem cartesianProduct_empty_list_witness :
    cartesianProduct [["a", "b"], [], ["c"]] = [] ∧
    cartesianProduct [["a", "b"], [], ["c"]] ≠ [Combo.arr []] :=
  cartesianProduct_empty_list [["a", "b"], [], ["c"]] ⟨[], by decide, rfl⟩

/-- C19. Every result object returned by `generate()` or by `generateWithLimit(limit)`
satisfies `results.length == min(total, truncatedAt if truncated else total)`. -/
theorem result_invariant (e : Engine) (limit : Nat) (r : GenerationResult)
    (h : generate e = Except.ok r ∨ generateWithLimit e limit = Except.ok r) :
    resultInvariant r := by
  have hgen : ∀ r0, generate e = Except.ok r0 → resultInvariant r0 := by
    intro r0 h0
    obtain ⟨htot, htr, -⟩ := generate_ok_fields h0
    unfold resultInvariant
    rw [htr, htot]
    simp
  rcases h with h | h
  · exact hgen r h
  · unfold generateWithLimit at h
    split at h
    · cases h
    · rename_i r0 h0
      obtain ⟨htot, -, -⟩ := generate_ok_fields h0
      split at h
      · rename_i hlt
        cases h
        unfold resultInvariant
        simp only [List.length_take, if_true]
        omega
      · cases h
        exact hgen r h0

/-- C19 witness: three lists of two items with limit 5, a truncated result. -/
theorem result_invariant_witness :
    resultInvariant
      { results := ["a 1 x", "a 1 y", "a 2 x", "a 2 y", "b 1 x"], total := 8,
        truncated := true, truncatedAt := 5 } :=
  result_invariant (addList (addList (addList constructor "a\nb") "1\n2") "x\ny") 5 _
    (Or.inr rfl)

/-- C20. After `clearLists()` the store holds no lists whatever it held before, the
config is unchanged, and a following `generate()` or `generateWithLimit(limit)` throws
`NO_LISTS`. -/
theorem clearLists_empties (e : Engine) (limit : Nat) :
    (clearLists e).lists = [] ∧ (clearLists e).config = e.config ∧
    generate (clearLists e) = Except.error EngineError.noLists ∧
    generateWithLimit (clearLists e) limit = Except.error EngineError.noLists :=
  ⟨rfl, rfl, rfl, rfl⟩

/-- C16 counterexample: on a store of one list, `removeList(1)` and `removeList(-1)`
(no valid position) complete normally and leave the store as it was; no error is
raised. -/
theorem removeList_invalid_index_no_error :
    removeListOutcome (addList constructor "a") 1 = Except.ok (addList constructor "a")
    ∧ removeListOutcome (addList constructor "a") (-1) = Except.ok (addList constructor "a")
    ∧ (addList constructor "a").lists.length = 1 :=
  ⟨rfl, rfl, rfl⟩

/-- C16 (amended). `removeList(index)` never fails: whenever `index` is not a valid
position of the store (`index < 0` or `index >=` number of lists) it completes
normally and leaves the store as it was. -/
theorem removeList_invalid_index (e : Engine) (index : Int)
    (h : index < 0 ∨ (e.lists.length : Int) ≤ index) :
    removeListOutcome e index = Except.ok e := by
  unfold removeListOutcome removeList
  rw [if_neg (by omega)]

/-- C16 witness: index 5 on a store of two lists. -/
theorem removeList_invalid_index_witness :
    removeListOutcome (addList (addList constructor "a") "b") 5
      = Except.ok (addList (addList constructor "a") "b") :=
  removeList_invalid_index (addList (addList constructor "a") "b") 5 (Or.inr (by decide))

/-- C17. For `0 <= index <` number of lists, `removeList(index)` shortens the store by
one, keeps the config, keeps every entry before `index` at its position and moves
every entry after `index` one position down (so exactly the entry at `index` is
removed and the others keep their order); for any other index the state is left
exactly as it was. -/
theorem removeList_frame (e : Engine) (index : Int) :
    ((0 ≤ index ∧ index < e.lists.length) →
      (removeList e index).lists.length + 1 = e.lists.length
      ∧ (removeList e index).config = e.config
      ∧ (∀ j : Nat, (j : Int) < index → (removeList e index).lists[j]? = e.lists[j]?)
      ∧ (∀ j : Nat, index ≤ (j : Int) → (removeList e index).lists[j]? = e.lists[j + 1]?))
    ∧ (¬ (0 ≤ index ∧ index < e.lists.length) → removeList e index = e) := by
  constructor
  · intro hvalid
    have hlists : (removeList e index).lists = e.lists.eraseIdx index.toNat := by
      unfold removeList
      rw [if_pos hvalid]
    have hcfg : (removeList e index).config = e.config := by
      unfold removeList
      rw [if_pos hvalid]
    refine ⟨?_, hcfg, ?_, ?_⟩
    · rw [hlists, List.length_eraseIdx, if_pos (by omega)]
      omega
    · intro j hj
      rw [hlists]
      exact List.getElem?_eraseIdx_of_lt _ _ _ (by omega)
    · intro j hj
      rw [hlists]
      exact List.getElem?_eraseIdx_of_ge _ _ _ (by omega)
  · intro hinvalid
    unfold removeList
    rw [if_neg hinvalid]

/-- C17 witness: removing position 1 of the store holding the lists a, b, c leaves
the lists a, c. -/
theorem removeList_frame_witness :
    (removeList (addList (addList (addList constructor "a") "b") "c") 1).lists.length + 1 = 3
    ∧ (removeList (addList (addList (addList constructor "a") "b") "c") 1).config
        = constructor.config
    ∧ (∀ j : Nat, (j : Int) < 1 →
        (removeList (addList (addList (addList constructor "a") "b") "c") 1).lists[j]?
          = (addList (addList (addList constructor "a") "b") "c").lists[j]?)
    ∧ (∀ j : Nat, (1 : Int) ≤ (j : Int) →
        (removeList (addList (addList (addList constructor "a") "b") "c") 1).lists[j]?
          = (addList (addList (addList constructor "a") "b") "c").lists[j + 1]?) :=
  (removeList_frame (addList (addList (addList constructor "a") "b") "c") 1).1
    ⟨by decide, by decide⟩

theorem generatePermutations_lex_aux {α : Type} [LT α] (n : Nat) :
    ∀ arr : List α, arr.length = n → arr.Pairwise (fun a b => a < b) →
      (generatePermutations arr).Pairwise (List.Lex (fun a b => a < b)) := by
  induction n with
  | zero =>
    intro arr h _
    rw [generatePermutations_unfold, if_pos (by omega)]
    exact List.pairwise_singleton _ _
  | succ m ih =>
    intro arr h hsorted
    rw [generatePermutations_unfold]
    split
    · exact List.pairwise_singleton _ _
    · rw [List.pairwise_flatMap]
      constructor
      · intro ix hix
        have := rest_length hix
        rw [List.pairwise_map]
        have hrest : (arr.take ix.1 ++ arr.drop (ix.1 + 1)).Pairwise (fun a b => a < b) := by
          rw [← List.eraseIdx_eq_take_drop_succ]
          exact List.Pairwise.sublist (List.eraseIdx_sublist _ _) hsorted
        exact List.Pairwise.imp (fun hlex => List.Lex.cons hlex) (ih _ (by omega) hrest)
      · have hpair : List.Pairwise (fun a b : Nat × α => a.2 < b.2) arr.enum := by
          have h2 : List.Pairwise (fun a b : α => a < b) (arr.enum.map Prod.snd) := by
            rw [List.enum_map_snd]
            exact hsorted
          exact List.pairwise_map.mp h2
        refine List.Pairwise.imp ?_ hpair
        intro a b hab p hp q hq
        rw [List.mem_map] at hp hq
        obtain ⟨p2, _, rfl⟩ := hp
        obtain ⟨q2, _, rfl⟩ := hq
        exact List.Lex.rel hab

/-- C14. Run on the positions `0, ..., n-1`, `generatePermutations` emits the index
sequences in strictly increasing lexicographic order (each one is greater than the
one before it, and than every earlier one); the arrangements of a list are these
index sequences, in this order, with every position replaced by the item it holds, so
the order does not depend on the item values. -/
theorem generatePermutations_lexicographic {α : Type} (arr : List α) :
    (generatePermutations (List.finRange arr.length)).Chain' (List.Lex (fun a b => a < b))
    ∧ (generatePermutations (List.finRange arr.length)).Pairwise (List.Lex (fun a b => a < b))
    ∧ generatePermutations arr
        = (generatePermutations (List.finRange arr.length)).map (fun p => p.map arr.get) := by
  have hpw := generatePermutations_lex_aux _ (List.finRange arr.length) rfl
    (List.pairwise_lt_finRange _)
  refine ⟨List.Pairwise.chain' hpw, hpw, ?_⟩
  rw [← generatePermutations_map_aux arr.get _ _ rfl, List.finRange_map_get]

/-! ## `addList` -/

theorem splitLines_ne_nil (cs : List Char) : splitLines cs ≠ [] := by
  cases cs with
  | nil => simp [splitLines]
  | cons c cs =>
    unfold splitLines
    split
    · simp
    · split <;> simp

theorem splitLines_no_newline (cs : List Char) : ∀ l ∈ splitLines cs, '\n' ∉ l := by
  induction cs with
  | nil =>
    intro l hl
    simp only [splitLines, List.mem_singleton] at hl
    rw [hl]
    exact List.not_mem_nil _
  | cons c cs ih =>
    intro l hl
    unfold splitLines at hl
    split at hl
    · rcases List.mem_cons.mp hl with h | h
      · rw [h]
        exact List.not_mem_nil _
      · exact ih l h
    · rename_i hc
      split at hl
      · rename_i hnil
        exact absurd hnil (splitLines_ne_nil cs)
      · rename_i l0 ls heq
        rcases List.mem_cons.mp hl with h | h
        · rw [h]
          intro hmem
          rcases List.mem_cons.mp hmem with h1 | h1
          · exact hc h1.symm
          · exact ih l0 (by rw [heq]; exact List.mem_cons_self _ _) h1
        · exact ih l (by rw [heq]; exact List.mem_cons_of_mem _ h)

theorem splitLines_intercalate (cs : List Char) :
    List.intercalate ['\n'] (splitLines cs) = cs := by
  induction cs with
  | nil => rfl
  | cons c cs ih =>
    unfold splitLines
    split
    · rename_i hc
      cases hsp : splitLines cs with
      | nil => exact absurd hsp (splitLines_ne_nil cs)
      | cons l0 ls =>
        rw [hsp] at ih
        rw [hc]
        simp only [List.intercalate, List.intersperse, List.flatten_cons, List.nil_append,
          List.singleton_append] at ih ⊢
        rw [ih]
    · cases hsp : splitLines cs with
      | nil => exact absurd hsp (splitLines_ne_nil cs)
      | cons l0 ls =>
        rw [hsp] at ih
        simp only
        cases ls with
        | nil =>
          simp only [List.intercalate, List.intersperse, List.flatten_cons, List.flatten_nil,
            List.append_nil] at ih ⊢
          rw [ih]
        | cons l1 ls =>
          simp only [List.intercalate, List.intersperse, List.flatten_cons, List.cons_append] at ih ⊢
          rw [ih]

theorem trimChars_decompose (cs : List Char) :
    ∃ pre post : List Char, cs = pre ++ trimChars cs ++ post
      ∧ (∀ c ∈ pre, isJsWhiteSpace c = true) ∧ (∀ c ∈ post, isJsWhiteSpace c = true) := by
  refine ⟨cs.takeWhile isJsWhiteSpace,
    (((cs.dropWhile isJsWhiteSpace).reverse).takeWhile isJsWhiteSpace).reverse, ?_, ?_, ?_⟩
  · unfold trimChars
    rw [List.append_assoc, ← List.reverse_append, List.takeWhile_append_dropWhile,
      List.reverse_reverse, List.takeWhile_append_dropWhile]
  · intro c hc
    exact List.mem_takeWhile_imp hc
  · intro c hc
    exact List.mem_takeWhile_imp (List.mem_reverse.mp hc)

theorem trimChars_last (cs : List Char) (c : Char) (h : (trimChars cs).getLast? = some c) :
    isJsWhiteSpace c = false := by
  unfold trimChars at h
  rw [List.getLast?_reverse] at h
  have := List.head?_dropWhile_not isJsWhiteSpace (cs.dropWhile isJsWhiteSpace).reverse
  rw [h] at this
  simpa using this

theorem trimChars_head (cs : List Char) (c : Char) (h : (trimChars cs).head? = some c) :
    isJsWhiteSpace c = false := by
  unfold trimChars at h
  rw [List.head?_reverse] at h
  obtain ⟨t, ht⟩ := List.dropWhile_suffix (l := (cs.dropWhile isJsWhiteSpace).reverse)
    isJsWhiteSpace
  have hne : List.dropWhile isJsWhiteSpace (cs.dropWhile isJsWhiteSpace).reverse ≠ [] := by
    intro hnil
    rw [hnil] at h
    cases h
  have hlast : ((cs.dropWhile isJsWhiteSpace).reverse).getLast? = some c := by
    rw [← ht, List.getLast?_append_of_ne_nil _ hne]
    exact h
  rw [List.getLast?_reverse] at hlast
  have := List.head?_dropWhile_not isJsWhiteSpace cs
  rw [hlast] at this
  simpa using this

/-- C15. `addList(raw, title)` appends the one entry `{title, items}` at the end of
the store, whatever `items` is (also when it is empty), and changes nothing else.
`items` holds, in input order, the non-empty ones among the trimmed lines of `raw`;
the lines are the pieces of `raw` between line feeds (no line holds a line feed, and
the lines joined by line feeds give `raw` back); trimming a line removes white space
at its two ends only; every stored item is non-empty and neither starts nor ends with
white space. -/
theorem addList_appends (e : Engine) (raw title : String) :
    (addList e raw title).lists
        = e.lists ++ [{ title := title,
                        items := ((split raw).map trim).filter (fun item => item ≠ "") }]
    ∧ (addList e raw title).config = e.config
    ∧ (addList e raw title).lists.length = e.lists.length + 1
    ∧ (∀ j : Nat, j < e.lists.length → (addList e raw title).lists[j]? = e.lists[j]?)
    ∧ (∀ line ∈ split raw, '\n' ∉ line.data)
    ∧ List.intercalate ['\n'] ((split raw).map String.data) = raw.data
    ∧ (∀ line : String, ∃ pre post : List Char,
          line.data = pre ++ (trim line).data ++ post
          ∧ (∀ c ∈ pre, isJsWhiteSpace c = true) ∧ (∀ c ∈ post, isJsWhiteSpace c = true))
    ∧ (∀ item ∈ ((split raw).map trim).filter (fun item => item ≠ ""),
          item ≠ ""
          ∧ (∀ c, item.data.head? = some c → isJsWhiteSpace c = false)
          ∧ (∀ c, item.data.getLast? = some c → isJsWhiteSpace c = false)) := by
  refine ⟨rfl, rfl, ?_, ?_, ?_, ?_, ?_, ?_⟩
  · show (e.lists ++ [_]).length = _
    rw [List.length_append, List.length_singleton]
  · intro j hj
    show (e.lists ++ [_])[j]? = _
    exact List.getElem?_append_left hj
  · intro line hline
    unfold split at hline
    rw [List.mem_map] at hline
    obtain ⟨l, hl, rfl⟩ := hline
    exact splitLines_no_newline _ l hl
  · unfold split
    rw [List.map_map]
    have : (String.data ∘ String.mk) = id := rfl
    rw [this, List.map_id, splitLines_intercalate]
  · intro line
    exact trimChars_decompose line.data
  · intro item hitem
    rw [List.mem_filter, List.mem_map] at hitem
    obtain ⟨⟨line, -, rfl⟩, hne⟩ := hitem
    refine ⟨by simpa using hne, ?_, ?_⟩
    · intro c hc
      exact trimChars_head line.data c hc
    · intro c hc
      exact trimChars_last line.data c hc

/-! ## `validateFreeLimits` -/

theorem digitChar_value (d : Nat) (h : d < 10) : (Nat.digitChar d).toNat - 48 = d := by
  interval_cases d <;> rfl

theorem toDigitsCore_value (fuel : Nat) :
    ∀ (n : Nat) (ds : List Char), n < fuel →
      List.foldl (fun a c => 10 * a + (Char.toNat c - 48)) 0 (Nat.toDigitsCore 10 fuel n ds)
        = List.foldl (fun a c => 10 * a + (Char.toNat c - 48)) n ds := by
  induction fuel with
  | zero =>
    intro n ds h
    omega
  | succ fuel ih =>
    intro n ds h
    unfold Nat.toDigitsCore
    simp only
    split
    · rename_i hdiv
      have hn : n < 10 := by omega
      rw [List.foldl_cons, Nat.mod_eq_of_lt hn, digitChar_value n hn]
      simp
    · rename_i hdiv
      have hlt : n / 10 < fuel := by omega
      rw [ih (n / 10) _ hlt, List.foldl_cons, digitChar_value (n % 10) (Nat.mod_lt _ (by decide))]
      have : 10 * (n / 10) + n % 10 = n := Nat.div_add_mod n 10
      rw [this]

theorem repr_injective (i j : Nat) (h : Nat.repr i = Nat.repr j) : i = j := by
  have hd : Nat.toDigits 10 i = Nat.toDigits 10 j := congrArg String.data h
  have hi := toDigitsCore_value (i + 1) i [] (by omega)
  have hj := toDigitsCore_value (j + 1) j [] (by omega)
  unfold Nat.toDigits at hd
  rw [hd, hj] at hi
  simpa using hi.symm

theorem itemsLimitError_injective (i j : Nat) (h : itemsLimitError i = itemsLimitError j) :
    i = j := by
  unfold itemsLimitError at h
  have hd := congrArg String.data h
  rw [String.data_append, String.data_append, String.data_append, String.data_append] at hd
  exact repr_injective i j (String.ext (List.append_cancel_left (List.append_cancel_right hd)))

theorem itemsLimitError_ne (i : Nat) : itemsLimitError i ≠ "LISTS_LIMIT_EXCEEDED" := by
  intro h
  unfold itemsLimitError at h
  have hd := congrArg (fun s : String => s.data.get? 4) h
  simp only [String.data_append] at hd
  simp at hd

theorem foldl_push_filter {α : Type} (p : α → Bool) (f : α → String) (l : List α) :
    ∀ init : List String,
      l.foldl (fun errors x => if p x = true then errors ++ [f x] else errors) init
        = init ++ (l.filter p).map f := by
  induction l with
  | nil =>
    intro init
    simp
  | cons x xs ih =>
    intro init
    rw [List.foldl_cons, ih]
    by_cases hp : p x = true
    · rw [if_pos hp, List.filter_cons_of_pos hp, List.map_cons, List.append_assoc]
      rfl
    · rw [if_neg hp, List.filter_cons_of_neg hp]

theorem validateFreeLimits_eq (e : Engine) :
    validateFreeLimits e
      = (if e.lists.length > 3 then ["LISTS_LIMIT_EXCEEDED"] else [])
        ++ (e.lists.enum.filter (fun il => decide (il.2.items.length > 20))).map
            (fun il => itemsLimitError il.1) := by
  unfold validateFreeLimits
  simp only [FREE_LIMITS]
  rw [← foldl_push_filter (fun il : Nat × ListEntry => decide (il.2.items.length > 20))
    (fun il => itemsLimitError il.1)]
  congr 1
  funext errors il
  simp only [decide_eq_true_eq]

/-- C18. `validateFreeLimits()` returns `'LISTS_LIMIT_EXCEEDED'` (first, when present)
followed by `'LIST_<index>_ITEMS_LIMIT_EXCEEDED'` for the lists of more than 20 items,
in store order. So `'LISTS_LIMIT_EXCEEDED'` is reported exactly when the store holds
more than 3 lists, `'LIST_<i>_ITEMS_LIMIT_EXCEEDED'` exactly when the list at position
`i` exists and holds more than 20 items, and the error list is empty if and only if
neither limit is exceeded. -/
theorem validateFreeLimits_reports (e : Engine) :
    FREE_LIMITS.LISTS = 3 ∧ FREE_LIMITS.ITEMS_PER_LIST = 20
    ∧ validateFreeLimits e
        = (if e.lists.length > 3 then ["LISTS_LIMIT_EXCEEDED"] else [])
          ++ (e.lists.enum.filter (fun il => decide (il.2.items.length > 20))).map
              (fun il => "LIST_" ++ toString il.1 ++ "_ITEMS_LIMIT_EXCEEDED")
    ∧ ("LISTS_LIMIT_EXCEEDED" ∈ validateFreeLimits e ↔ e.lists.length > 3)
    ∧ (∀ i : Nat, ("LIST_" ++ toString i ++ "_ITEMS_LIMIT_EXCEEDED") ∈ validateFreeLimits e
          ↔ ∃ l, e.lists[i]? = some l ∧ l.items.length > 20)
    ∧ (validateFreeLimits e = [] ↔
          e.lists.length ≤ 3 ∧ ∀ l ∈ e.lists, l.items.length ≤ 20) := by
  refine ⟨rfl, rfl, validateFreeLimits_eq e, ?_, ?_, ?_⟩
  · rw [validateFreeLimits_eq, List.mem_append]
    constructor
    · rintro (h | h)
      · by_contra hle
        rw [if_neg hle] at h
        cases h
      · rw [List.mem_map] at h
        obtain ⟨il, -, hil⟩ := h
        exact absurd hil (itemsLimitError_ne il.1)
    · intro h
      left
      rw [if_pos h]
      exact List.mem_singleton.mpr rfl
  · intro i
    show itemsLimitError i ∈ validateFreeLimits e ↔ _
    rw [validateFreeLimits_eq, List.mem_append]
    constructor
    · rintro (h | h)
      · split at h
        · exact absurd (List.mem_singleton.mp h) (itemsLimitError_ne i)
        · cases h
      · rw [List.mem_map] at h
        obtain ⟨il, hil, heq⟩ := h
        rw [List.mem_filter] at hil
        have hi : il.1 = i := itemsLimitError_injective _ _ heq
        refine ⟨il.2, ?_, by simpa using hil.2⟩
        rw [← hi]
        exact List.mem_enum_iff_getElem?.mp hil.1
    · rintro ⟨l, hl, hcount⟩
      right
      rw [List.mem_map]
      refine ⟨(i, l), ?_, rfl⟩
      rw [List.mem_filter]
      exact ⟨List.mk_mem_enum_iff_getElem?.mpr hl, by simpa using hcount⟩
  · rw [validateFreeLimits_eq, List.append_eq_nil, List.map_eq_nil_iff, List.filter_eq_nil_iff]
    constructor
    · rintro ⟨h1, h2⟩
      constructor
      · by_contra hle
        rw [if_pos (by omega)] at h1
        cases h1
      · intro l hl
        obtain ⟨i, hi⟩ := List.mem_iff_getElem?.mp hl
        have := h2 (i, l) (List.mk_mem_enum_iff_getElem?.mpr hi)
        simpa using this
    · rintro ⟨h1, h2⟩
      constructor
      · rw [if_neg (by omega)]
      · intro il hil
        have hget := List.mem_enum_iff_getElem?.mp hil
        have hmem : il.2 ∈ e.lists := List.mem_iff_getElem?.mpr ⟨il.1, hget⟩
        have := h2 il.2 hmem
        simpa using this

/-! ## The work of `generate` and `generateWithLimit` -/

theorem mapCombos_length {c : Config} {xs : List Combo} {ss : List String}
    (h : mapCombos c xs = Except.ok ss) : ss.length = xs.length := by
  induction xs generalizing ss with
  | nil =>
    cases h
    rfl
  | cons x xs ih =>
    unfold mapCombos at h
    split at h
    · cases h
    · split at h
      · cases h
      · rename_i ss2 h2
        cases h
        rw [List.length_cons, List.length_cons, ih h2]

theorem generate_total_eq_tuplesBuilt {e : Engine} {r : GenerationResult}
    (h : generate e = Except.ok r) : tuplesBuilt e = r.total := by
  obtain ⟨htot, -, -⟩ := generate_ok_fields h
  unfold generate at h
  split at h
  · cases h
  · rename_i hlen
    split at h
    · cases h
    · rename_i results hres
      cases h
      unfold tuplesBuilt
      rw [if_neg hlen]
      unfold generateResults at hres
      simp only at hres
      split at hres
      · rename_i hc
        rw [if_pos hc]
        exact (mapCombos_length hres).symm
      · rename_i hc
        rw [if_neg hc]
        split at hres
        · rename_i h1
          rw [if_pos h1]
          split at hres
          · cases hres
            simp
          · cases hres
            rfl
        · rename_i h1
          rw [if_neg h1]
          exact (mapCombos_length hres).symm

/-- C23 counterexample: on three lists of two items with `limit = 1`,
`generateWithLimit` returns one result of a total of 8, and the call has built all 8
tuples, more than `limit`. -/
theorem generateWithLimit_builds_everything :
    generateWithLimit (addList (addList (addList constructor "a\nb") "1\n2") "x\ny") 1
      = Except.ok { results := ["a 1 x"], total := 8, truncated := true, truncatedAt := 1 }
    ∧ tuplesBuiltWithLimit (addList (addList (addList constructor "a\nb") "1\n2") "x\ny") 1 = 8
    ∧ ¬ (tuplesBuiltWithLimit (addList (addList (addList constructor "a\nb") "1\n2") "x\ny") 1
          ≤ 1) :=
  ⟨rfl, rfl, by decide⟩

/-- C23 (amended). `generateWithLimit(limit)` generates everything and then slices:
whenever it returns a result, the number of tuples the call has built is the true
count `total`, whatever `limit` is. -/
theorem generateWithLimit_work (e : Engine) (limit : Nat) (r : GenerationResult)
    (h : generateWithLimit e limit = Except.ok r) :
    tuplesBuiltWithLimit e limit = r.total := by
  unfold generateWithLimit at h
  split at h
  · cases h
  · rename_i r0 h0
    have hwork := generate_total_eq_tuplesBuilt h0
    unfold tuplesBuiltWithLimit
    split at h
    · cases h
      exact hwork
    · cases h
      exact hwork

/-- C23 witness: three lists of two items, `limit = 1`. -/
theorem generateWithLimit_work_witness :
    tuplesBuiltWithLimit (addList (addList (addList constructor "a\nb") "1\n2") "x\ny") 1 = 8 :=
  generateWithLimit_work (addList (addList (addList constructor "a\nb") "1\n2") "x\ny") 1
    { results := ["a 1 x"], total := 8, truncated := true, truncatedAt := 1 } rfl

/-! ## Cartesian products against the row-major reference -/

theorem rowMajor_length {α : Type} (ls : List (List α)) :
    ∀ t ∈ rowMajor ls, t.length = ls.length := by
  induction ls with
  | nil =>
    intro t ht
    simp only [rowMajor, List.mem_singleton] at ht
    rw [ht]
    rfl
  | cons l ls ih =>
    intro t ht
    simp only [rowMajor, List.mem_flatMap, List.mem_map] at ht
    obtain ⟨x, -, t2, ht2, rfl⟩ := ht
    rw [List.length_cons, List.length_cons, ih t2 ht2]

theorem product_step_arrays (g : Combo → List String) (hg : ∀ xs, g (Combo.arr xs) = xs)
    (acc : List (List String)) (curr : List String) :
    (acc.map Combo.arr).flatMap (fun combo => curr.map (fun item => Combo.arr (g combo ++ [item])))
      = (acc.flatMap (fun c => curr.map (fun item => c ++ [item]))).map Combo.arr := by
  rw [List.flatMap_map, List.map_flatMap]
  apply List.flatMap_congr
  intro c _
  simp only [Function.comp_apply, hg, List.map_map]
  rfl

theorem product_foldl_arrays (g : Combo → List String) (hg : ∀ xs, g (Combo.arr xs) = xs)
    (rest : List (List String)) :
    ∀ acc : List (List String),
      rest.foldl
          (fun acc curr =>
            acc.flatMap (fun combo => curr.map (fun item => Combo.arr (g combo ++ [item]))))
          (acc.map Combo.arr)
        = (acc.flatMap (fun c => (rowMajor rest).map (fun t => c ++ t))).map Combo.arr := by
  induction rest with
  | nil =>
    intro acc
    simp [rowMajor]
  | cons curr rest ih =>
    intro acc
    rw [List.foldl_cons, product_step_arrays g hg, ih]
    congr 1
    rw [List.flatMap_assoc]
    apply List.flatMap_congr
    intro c _
    rw [List.flatMap_map]
    simp only [rowMajor, List.map_flatMap, List.map_map]
    apply List.flatMap_congr
    intro item _
    apply List.map_congr_left
    intro t _
    simp

/-- C28. `cartesianProduct` of src/script.js ignores the empty input arrays: its
result is the row-major Cartesian product of the non-empty ones, each tuple holding
one whole item per non-empty array, and it is the single empty tuple when the input
is empty or holds only empty arrays. -/
theorem script_cartesianProduct_rowMajor (arrays : List (List String)) :
    Script.cartesianProduct arrays
        = (rowMajor (arrays.filter (fun arr => decide (arr.length > 0)))).map Combo.arr
    ∧ ((∀ arr ∈ arrays, arr = []) → Script.cartesianProduct arrays = [Combo.arr []])
    ∧ (∀ c ∈ Script.cartesianProduct arrays, ∃ t, c = Combo.arr t
        ∧ t.length = (arrays.filter (fun arr => decide (arr.length > 0))).length) := by
  have hmain : Script.cartesianProduct arrays
      = (rowMajor (arrays.filter (fun arr => decide (arr.length > 0)))).map Combo.arr := by
    unfold Script.cartesianProduct
    split
    · rename_i h0
      rw [List.length_eq_zero.mp h0]
      rfl
    · simp only
      split
      · rename_i h0
        rw [List.length_eq_zero.mp h0]
        rfl
      · have := product_foldl_arrays
          (fun accItem => match accItem with
            | Combo.arr xs => xs
            | Combo.str s => [s])
          (fun _ => rfl) (arrays.filter (fun arr => decide (arr.length > 0))) [[]]
        simp only [List.map_cons, List.map_nil, List.flatMap_cons, List.flatMap_nil,
          List.nil_append, List.append_nil, List.map_id'] at this
        exact this
  refine ⟨hmain, ?_, ?_⟩
  · intro hall
    rw [hmain]
    have hfilter : arrays.filter (fun arr => decide (arr.length > 0)) = [] := by
      rw [List.filter_eq_nil_iff]
      intro a ha
      rw [hall a ha]
      decide
    rw [hfilter]
    rfl
  · intro c hc
    rw [hmain, List.mem_map] at hc
    obtain ⟨t, ht, rfl⟩ := hc
    exact ⟨t, rfl, rowMajor_length _ t ht⟩

theorem product_step_strings (first : List String) (curr : List String) :
    (first.map Combo.str).flatMap
        (fun combo => curr.map (fun item => Combo.arr (spread combo ++ [item])))
      = (first.flatMap (fun s =>
          curr.map (fun item => s.data.map String.singleton ++ [item]))).map Combo.arr := by
  rw [List.flatMap_map, List.map_flatMap]
  apply List.flatMap_congr
  intro s _
  simp only [Function.comp_apply, spread, List.map_map]
  rfl

theorem rowMajor_reassoc {α : Type} (k : α → List String) (acc : List α) (curr : List String)
    (rest : List (List String)) :
    (acc.flatMap (fun a => curr.map (fun item => k a ++ [item]))).flatMap
        (fun c => (rowMajor rest).map (fun t => c ++ t))
      = acc.flatMap (fun a => (rowMajor (curr :: rest)).map (fun t => k a ++ t)) := by
  rw [List.flatMap_assoc]
  apply List.flatMap_congr
  intro a _
  rw [List.flatMap_map]
  simp only [rowMajor, List.map_flatMap, List.map_map]
  apply List.flatMap_congr
  intro item _
  apply List.map_congr_left
  intro t _
  simp

theorem chars_of_length_one (s : String) (h : s.length = 1) :
    s.data.map String.singleton = [s] := by
  have hd : s.data.length = 1 := h
  match hdata : s.data, hd with
  | [c], _ =>
    simp only [List.map_cons, List.map_nil, List.cons.injEq, and_true]
    apply String.ext
    rw [hdata]
    rfl

/-- C26. For two or more non-empty lists, the tuple `cartesianProduct` builds from
the first-list item `s` and the row-major tuple `t` of the other lists is the
characters of `s` followed by `t`, so it has (number of characters of `s`) + n - 1
elements, n being the number of lists; when every item of the first list is one
character long, the result is the reference row-major Cartesian product, one whole
item per list. -/
theorem cartesianProduct_first_list_spread (first : List String) (rest : List (List String))
    (hrest : rest ≠ []) (hne : ∀ l ∈ first :: rest, l ≠ []) :
    cartesianProduct (first :: rest)
        = (first.flatMap (fun s =>
            (rowMajor rest).map (fun t => s.data.map String.singleton ++ t))).map Combo.arr
    ∧ (∀ c ∈ cartesianProduct (first :: rest), ∃ s ∈ first, ∃ t ∈ rowMajor rest,
        c = Combo.arr (s.data.map String.singleton ++ t)
        ∧ (spread c).length = s.length + (rest.length + 1) - 1)
    ∧ ((∀ s ∈ first, s.length = 1) →
        cartesianProduct (first :: rest) = (rowMajor (first :: rest)).map Combo.arr) := by
  have hmain : cartesianProduct (first :: rest)
      = (first.flatMap (fun s =>
          (rowMajor rest).map (fun t => s.data.map String.singleton ++ t))).map Combo.arr := by
    unfold cartesianProduct
    rw [if_neg (by simp)]
    have hany : ((first :: rest).any fun arr => decide (arr.length = 0)) = false := by
      rw [List.any_eq_false]
      intro l hl
      have := hne l hl
      simpa using this
    rw [hany]
    simp only [Bool.false_eq_true, if_false]
    cases rest with
    | nil => exact absurd rfl hrest
    | cons curr rest2 =>
      rw [List.foldl_cons, product_step_strings,
        product_foldl_arrays spread (fun _ => rfl), rowMajor_reassoc]
  refine ⟨hmain, ?_, ?_⟩
  · intro c hc
    rw [hmain, List.mem_map] at hc
    obtain ⟨u, hu, rfl⟩ := hc
    rw [List.mem_flatMap] at hu
    obtain ⟨s, hs, hu⟩ := hu
    rw [List.mem_map] at hu
    obtain ⟨t, ht, rfl⟩ := hu
    refine ⟨s, hs, t, ht, rfl, ?_⟩
    simp only [spread, List.length_append, List.length_map, rowMajor_length rest t ht]
    rfl
  · intro hone
    rw [hmain]
    congr 1
    simp only [rowMajor]
    apply List.flatMap_congr
    intro s hs
    rw [chars_of_length_one s (hone s hs)]
    rfl

/-- C26 witness: the lists `["ab","c"]`, `["1","2"]`. -/
theorem cartesianProduct_first_list_spread_witness :
    cartesianProduct [["ab", "c"], ["1", "2"]]
      = [Combo.arr ["a", "b", "1"], Combo.arr ["a", "b", "2"], Combo.arr ["c", "1"],
         Combo.arr ["c", "2"]] :=
  (cartesianProduct_first_list_spread ["ab", "c"] [["1", "2"]] (by decide) (by decide)).1

/-! ## The live count of src/script.js -/

theorem roundToDouble_exact (n : Nat) (h : n < 2 ^ 53) :
    Script.roundToDouble n = Script.JsNumber.finite n := by
  unfold Script.roundToDouble
  rw [if_pos h]

theorem foldl_jsMul_exact (pl : List (List String)) :
    ∀ a : Nat, (∀ l ∈ pl, l ≠ []) → a * (pl.map List.length).prod < 2 ^ 53 →
      pl.foldl (fun acc list => Script.jsMul acc list.length) (Script.JsNumber.finite a)
        = Script.JsNumber.finite (a * (pl.map List.length).prod) := by
  induction pl with
  | nil =>
    intro a _ _
    simp
  | cons l pl ih =>
    intro a hne hlt
    have hpos : 0 < (pl.map List.length).prod := by
      apply List.prod_pos
      intro k hk
      rw [List.mem_map] at hk
      obtain ⟨l2, hl2, rfl⟩ := hk
      exact List.length_pos.mpr (hne l2 (List.mem_cons_of_mem _ hl2))
    rw [List.map_cons, List.prod_cons, ← Nat.mul_assoc] at hlt
    have hstep : a * l.length < 2 ^ 53 :=
      lt_of_le_of_lt (Nat.le_mul_of_pos_right _ hpos) hlt
    rw [List.foldl_cons]
    show List.foldl _ (Script.roundToDouble (a * l.length)) pl = _
    rw [roundToDouble_exact _ hstep, ih (a * l.length)
      (fun l2 hl2 => hne l2 (List.mem_cons_of_mem _ hl2)) hlt,
      List.map_cons, List.prod_cons, Nat.mul_assoc]

theorem liveCount_combinations_exact (pl : List (List String)) (hne : ∀ l ∈ pl, l ≠ [])
    (hlt : (pl.map List.length).prod < 2 ^ 53) :
    Script.liveCount "combinations" pl = Script.JsNumber.finite (pl.map List.length).prod := by
  unfold Script.liveCount
  rw [if_pos rfl]
  have hany : (pl.any fun list => decide (list.length = 0)) = false := by
    rw [List.any_eq_false]
    intro l hl
    have := hne l hl
    simpa using this
  rw [hany]
  simp only [Bool.false_eq_true, if_false]
  rw [foldl_jsMul_exact pl 1 hne (by simpa using hlt), Nat.one_mul]

theorem foldl_filterMap_push {α β : Type} (f : α → Option β) (l : List α) :
    ∀ init : List β,
      l.foldl (fun acc a => match f a with
        | none => acc
        | some b => acc ++ [b]) init = init ++ l.filterMap f := by
  induction l with
  | nil =>
    intro init
    simp
  | cons a l ih =>
    intro init
    rw [List.foldl_cons, ih]
    cases hfa : f a with
    | none => simp [List.filterMap_cons, hfa]
    | some b => simp [List.filterMap_cons, hfa]

theorem potentialLists_eq (textareas : List (Option String)) :
    Script.potentialLists textareas
      = (textareas.take 3).filterMap (fun textarea =>
          match textarea with
          | none => none
          | some value =>
            if (((split value).map trim).filter (fun item => item ≠ "")).length > 0
            then some (((split value).map trim).filter (fun item => item ≠ ""))
            else none) := by
  unfold Script.potentialLists
  have htake : textareas.take (min textareas.length Script.FREE_TIER_LIST_LIMIT)
      = textareas.take 3 := by
    show textareas.take (min textareas.length 3) = _
    rw [Nat.min_comm, List.take_eq_take]
    simp
  rw [htake, ← List.nil_append (List.filterMap _ _), ← foldl_filterMap_push]
  congr 1
  funext acc textarea
  cases textarea with
  | none => rfl
  | some value =>
    simp only
    split <;> rfl

theorem potentialLists_nonempty (textareas : List (Option String)) :
    ∀ l ∈ Script.potentialLists textareas, l ≠ [] := by
  intro l hl
  rw [potentialLists_eq, List.mem_filterMap] at hl
  obtain ⟨textarea, -, hsome⟩ := hl
  cases textarea with
  | none => cases hsome
  | some value =>
    simp only at hsome
    split at hsome
    · rename_i hpos
      cases hsome
      exact List.length_pos.mp hpos
    · cases hsome

theorem liveCount_permutations_single (generationType : String) (items : List String)
    (hmode : generationType ≠ "combinations") (hn : 0 < items.length) :
    Script.liveCount generationType [items]
      = Script.factorialLoop items.length (List.range' 2 (items.length - 1))
          (Script.JsNumber.finite 1) := by
  unfold Script.liveCount
  rw [if_neg hmode]
  simp only [List.length_singleton, if_true]
  rw [if_pos hn]

theorem factorialLoop_small (n : Nat) (h1 : 1 ≤ n) (h12 : n ≤ 12) :
    Script.factorialLoop n (List.range' 2 (n - 1)) (Script.JsNumber.finite 1)
      = Script.JsNumber.finite n.factorial := by
  interval_cases n <;> rfl

theorem factorialLoop_large (n : Nat) (h13 : 13 ≤ n) :
    Script.factorialLoop n (List.range' 2 (n - 1)) (Script.JsNumber.finite 1)
      = Script.JsNumber.infinity := by
  have hsplit : n - 1 = (n - 12) + 11 := by omega
  have h12 : decide (12 < n) = true := by
    rw [decide_eq_true_eq]
    omega
  rw [hsplit]
  simp only [List.range'_succ, Script.factorialLoop, Script.jsGt, Script.jsMul,
    Script.roundToDouble, h12]
  norm_num

/-- C29. In permutations mode with a single considered list of `n >= 1` items, the
live count is exactly `n!` for `n <= 12` (11! and 12! are above 10,000,000 and still
reported exactly) and the sentinel `Infinity`, displayed as "10,000,000+", for
`n >= 13`; this is what `calculateAndDisplayLiveCombinationCount` displays whenever
the only non-empty list among those it considers is that one. -/
theorem liveCount_permutations_factorial (generationType : String) (items : List String)
    (hmode : generationType ≠ "combinations") (hn : 1 ≤ items.length) :
    (items.length ≤ 12 →
        Script.liveCount generationType [items] = Script.JsNumber.finite items.length.factorial
        ∧ Script.displayCount (Script.liveCount generationType [items])
            = Script.Display.localized (Script.JsNumber.finite items.length.factorial))
    ∧ (13 ≤ items.length →
        Script.liveCount generationType [items] = Script.JsNumber.infinity
        ∧ Script.displayCount (Script.liveCount generationType [items])
            = Script.Display.text "10,000,000+")
    ∧ (∀ textareas : List (Option String), Script.potentialLists textareas = [items] →
        Script.calculateAndDisplayLiveCombinationCount textareas generationType
          = Script.displayCount (Script.liveCount generationType [items]))
    ∧ 10000000 < Nat.factorial 11 ∧ 10000000 < Nat.factorial 12 := by
  have hloop := liveCount_permutations_single generationType items hmode hn
  refine ⟨?_, ?_, ?_, by decide, by decide⟩
  · intro h12
    have hval : Script.liveCount generationType [items]
        = Script.JsNumber.finite items.length.factorial := by
      rw [hloop, factorialLoop_small _ hn h12]
    refine ⟨hval, ?_⟩
    rw [hval]
    unfold Script.displayCount
    rw [if_neg (by intro h; cases h)]
  · intro h13
    have hval : Script.liveCount generationType [items] = Script.JsNumber.infinity := by
      rw [hloop, factorialLoop_large _ h13]
    refine ⟨hval, ?_⟩
    rw [hval]
    rfl
  · intro textareas hpl
    unfold Script.calculateAndDisplayLiveCombinationCount
    rw [hpl]
    have hne : textareas.length ≠ 0 := by
      intro h0
      rw [List.length_eq_zero.mp h0] at hpl
      cases hpl
    rw [if_neg hne, if_neg (by simp)]

/-- C29 witness: a single list of twelve items in permutations mode. -/
theorem liveCount_permutations_factorial_witness :
    Script.calculateAndDisplayLiveCombinationCount
        [some "1\n2\n3\n4\n5\n6\n7\n8\n9\n10\n11\n12"] "permutations"
      = Script.Display.localized (Script.JsNumber.finite 479001600) :=
  ((liveCount_permutations_factorial "permutations"
      ["1", "2", "3", "4", "5", "6", "7", "8", "9", "10", "11", "12"]
      (by decide) (by decide)).2.2.1
    [some "1\n2\n3\n4\n5\n6\n7\n8\n9\n10\n11\n12"] rfl).trans rfl

/-- C21 counterexample: with the lists `["a","b"]` and `[]` the live count in
combinations mode is 2, not 0 (the list without items is skipped); with four lists
of sizes 2, 1, 2, 2 it is 4, the product over the first three, not 8. -/
theorem liveCount_skips_empty_and_extra_lists :
    Script.calculateAndDisplayLiveCombinationCount [some "a\nb", some ""] "combinations"
      = Script.Display.localized (Script.JsNumber.finite 2)
    ∧ Script.calculateAndDisplayLiveCombinationCount
        [some "a\nb", some "c", some "d\ne", some "f\ng"] "combinations"
      = Script.Display.localized (Script.JsNumber.finite 4) :=
  ⟨rfl, rfl⟩

/-- C21 (amended). In combinations mode the live count is the product of the item
counts (after trim-and-filter) of the non-empty lists among the first three list
groups, the product being below `2^53`; the lists without items are skipped, and
"0" is displayed only when none of the considered lists has an item. -/
theorem liveCount_combinations_product (textareas : List (Option String))
    (hlt : ((Script.potentialLists textareas).map List.length).prod < 2 ^ 53) :
    Script.potentialLists textareas
        = (textareas.take 3).filterMap (fun textarea =>
            match textarea with
            | none => none
            | some value =>
              if (((split value).map trim).filter (fun item => item ≠ "")).length > 0
              then some (((split value).map trim).filter (fun item => item ≠ ""))
              else none)
    ∧ (∀ l ∈ Script.potentialLists textareas, l ≠ [])
    ∧ Script.calculateAndDisplayLiveCombinationCount textareas "combinations"
        = if Script.potentialLists textareas = [] then Script.Display.text "0"
          else Script.Display.localized
            (Script.JsNumber.finite ((Script.potentialLists textareas).map List.length).prod) := by
  refine ⟨potentialLists_eq textareas, potentialLists_nonempty textareas, ?_⟩
  unfold Script.calculateAndDisplayLiveCombinationCount
  by_cases hpl : Script.potentialLists textareas = []
  · rw [if_pos hpl]
    split
    · rfl
    · rw [if_pos (by rw [hpl]; rfl)]
  · rw [if_neg hpl]
    have hne : textareas.length ≠ 0 := by
      intro h0
      apply hpl
      rw [List.length_eq_zero.mp h0]
      rfl
    rw [if_neg hne, if_neg (fun h0 => hpl (List.length_eq_zero.mp h0)),
      liveCount_combinations_exact _ (potentialLists_nonempty textareas) hlt]
    unfold Script.displayCount
    rw [if_neg (by intro h; cases h)]

/-- C21 witness: the lists `["a","b"]`, `[]`, `["x","y","z"]` give 6. -/
theorem liveCount_combinations_product_witness :
    Script.calculateAndDisplayLiveCombinationCount [some "a\nb", some " ", some "x\ny\nz"]
        "combinations"
      = Script.Display.localized (Script.JsNumber.finite 6) :=
  (liveCount_combinations_product [some "a\nb", some " ", some "x\ny\nz"] (by decide)).2.2

theorem roundToDouble_finite (n : Nat) (h : n < 2 ^ 1023) :
    ∃ m, Script.roundToDouble n = Script.JsNumber.finite m ∧ m ≤ 2 * n := by
  unfold Script.roundToDouble
  split
  · exact ⟨n, rfl, by omega⟩
  · rename_i hge
    have hge2 : 2 ^ 53 ≤ n := Nat.le_of_not_lt hge
    have hn0 : n ≠ 0 := by
      intro h0
      rw [h0] at hge2
      exact absurd hge2 (by norm_num)
    have hL53 : 53 ≤ n.log2 := (Nat.le_log2 hn0).mpr hge2
    have hL1023 : n.log2 < 1023 := (Nat.log2_lt hn0).mpr h
    have hlow : 2 ^ n.log2 ≤ n := Nat.log2_self_le hn0
    have hup : n < 2 ^ (n.log2 + 1) := Nat.lt_log2_self
    have hexp : n.log2 + 1 = (n.log2 - 52) + 53 := by omega
    have hpow : 2 ^ (n.log2 + 1) = 2 ^ (n.log2 - 52) * 2 ^ 53 := by
      rw [hexp, pow_add]
    have hq : n / 2 ^ (n.log2 - 52) < 2 ^ 53 := by
      apply Nat.div_lt_of_lt_mul
      rw [← hpow]
      exact hup
    have hq1 : (if 2 * (n % 2 ^ (n.log2 - 52)) > 2 ^ (n.log2 - 52) ∨
          (2 * (n % 2 ^ (n.log2 - 52)) = 2 ^ (n.log2 - 52) ∧
            n / 2 ^ (n.log2 - 52) % 2 = 1)
        then n / 2 ^ (n.log2 - 52) + 1 else n / 2 ^ (n.log2 - 52)) ≤ 2 ^ 53 := by
      split <;> omega
    have hbound : (if 2 * (n % 2 ^ (n.log2 - 52)) > 2 ^ (n.log2 - 52) ∨
          (2 * (n % 2 ^ (n.log2 - 52)) = 2 ^ (n.log2 - 52) ∧
            n / 2 ^ (n.log2 - 52) % 2 = 1)
        then n / 2 ^ (n.log2 - 52) + 1 else n / 2 ^ (n.log2 - 52)) * 2 ^ (n.log2 - 52)
        ≤ 2 ^ (n.log2 + 1) := by
      rw [hpow, Nat.mul_comm (2 ^ (n.log2 - 52)) (2 ^ 53)]
      exact Nat.mul_le_mul_right _ hq1
    have htop : 2 ^ (n.log2 + 1) ≤ 2 ^ 1023 := Nat.pow_le_pow_right (by decide) (by omega)
    have h1024 : (2 : Nat) ^ 1023 < 2 ^ 1024 := Nat.pow_lt_pow_right (by decide) (by decide)
    have htwice : 2 ^ (n.log2 + 1) ≤ 2 * n := by
      rw [pow_succ, Nat.mul_comm]
      exact Nat.mul_le_mul_left 2 hlow
    simp only
    rw [if_neg (by omega)]
    exact ⟨_, rfl, le_trans hbound htwice⟩

theorem foldl_jsMul_finite (pl : List (List String)) :
    ∀ (a B : Nat), a < 2 ^ B → (∀ l ∈ pl, l.length < 2 ^ 32) → B + 33 * pl.length ≤ 1023 →
      ∃ m, pl.foldl (fun acc list => Script.jsMul acc list.length) (Script.JsNumber.finite a)
        = Script.JsNumber.finite m := by
  induction pl with
  | nil =>
    intro a B _ _ _
    exact ⟨a, rfl⟩
  | cons l pl ih =>
    intro a B ha hbound hB
    rw [List.length_cons] at hB
    have hl : l.length < 2 ^ 32 := hbound l (List.mem_cons_self _ _)
    have hprod : a * l.length < 2 ^ (B + 32) := by
      rw [pow_add]
      exact Nat.mul_lt_mul'' ha hl
    have hle : (2 : Nat) ^ (B + 32) ≤ 2 ^ 1023 := Nat.pow_le_pow_right (by decide) (by omega)
    obtain ⟨m, hm, hm2⟩ := roundToDouble_finite (a * l.length) (lt_of_lt_of_le hprod hle)
    have hmB : m < 2 ^ (B + 33) := by
      have : (2 : Nat) ^ (B + 33) = 2 * 2 ^ (B + 32) := by
        rw [show B + 33 = (B + 32) + 1 from rfl, pow_succ, Nat.mul_comm]
      omega
    rw [List.foldl_cons]
    show ∃ m, List.foldl _ (Script.roundToDouble (a * l.length)) pl = _
    rw [hm]
    exact ih m (B + 33) hmB (fun l2 hl2 => hbound l2 (List.mem_cons_of_mem _ hl2)) (by omega)

theorem roundToDouble_two_pow_66 :
    Script.roundToDouble (2 ^ 66) = Script.JsNumber.finite (2 ^ 66) := by
  have hlog : Nat.log2 (2 ^ 66) = 66 := by
    rw [Nat.log2_eq_log_two, Nat.log_pow (by norm_num)]
  unfold Script.roundToDouble
  rw [if_neg (by norm_num), hlog]
  norm_num

theorem liveCount_three_lists_two_pow_22 (l1 l2 l3 : List String)
    (h1 : l1.length = 2 ^ 22) (h2 : l2.length = 2 ^ 22) (h3 : l3.length = 2 ^ 22) :
    Script.liveCount "combinations" [l1, l2, l3] = Script.JsNumber.finite (2 ^ 66) := by
  have r1 : Script.roundToDouble (1 * 2 ^ 22) = Script.JsNumber.finite (2 ^ 22) :=
    roundToDouble_exact _ (by norm_num)
  have r2 : Script.roundToDouble (2 ^ 22 * 2 ^ 22) = Script.JsNumber.finite (2 ^ 44) :=
    roundToDouble_exact _ (by norm_num)
  have r3 : Script.roundToDouble (2 ^ 44 * 2 ^ 22) = Script.JsNumber.finite (2 ^ 66) :=
    roundToDouble_two_pow_66
  have hany : ([l1, l2, l3].any fun list => decide (list.length = 0)) = false := by
    simp only [List.any_cons, List.any_nil, h1, h2, h3]
    decide
  unfold Script.liveCount
  rw [if_pos rfl, hany]
  simp only [Bool.false_eq_true, if_false, List.foldl_cons, List.foldl_nil, Script.jsMul,
    h1, h2, h3, r1, r2, r3]

/-- C22 counterexample: three lists of `2^22` items have a product of `2^66`, above
the 64-bit unsigned range, and the estimate in combinations mode is the number
`2^66`, displayed through `toLocaleString`, not a sentinel. -/
theorem liveCount_no_overflow_sentinel :
    Script.liveCount "combinations"
        [List.replicate (2 ^ 22) "a", List.replicate (2 ^ 22) "a", List.replicate (2 ^ 22) "a"]
      = Script.JsNumber.finite (2 ^ 66)
    ∧ Script.displayCount (Script.JsNumber.finite (2 ^ 66))
      = Script.Display.localized (Script.JsNumber.finite (2 ^ 66))
    ∧ 2 ^ 64 - 1 < 2 ^ 66 := by
  refine ⟨?_, ?_, by norm_num⟩
  · exact liveCount_three_lists_two_pow_22 _ _ _ (List.length_replicate _ _)
      (List.length_replicate _ _) (List.length_replicate _ _)
  · unfold Script.displayCount
    rw [if_neg (by intro h; cases h)]

/-- C22 (amended). The combination-count estimate has no overflow sentinel in
combinations mode: for the at most three lists the live count considers, each of
fewer than `2^32` items, it is always a number, displayed through `toLocaleString`;
it is the exact product of the sizes whenever that product is below `2^53`. -/
theorem liveCount_combinations_numeric (pl : List (List String)) (hlen : pl.length ≤ 3)
    (hbound : ∀ l ∈ pl, l.length < 2 ^ 32) :
    (∃ m, Script.liveCount "combinations" pl = Script.JsNumber.finite m
      ∧ Script.displayCount (Script.liveCount "combinations" pl)
          = Script.Display.localized (Script.JsNumber.finite m))
    ∧ ((∀ l ∈ pl, l ≠ []) → (pl.map List.length).prod < 2 ^ 53 →
        Script.liveCount "combinations" pl
          = Script.JsNumber.finite (pl.map List.length).prod) := by
  constructor
  · have hfin : ∃ m, Script.liveCount "combinations" pl = Script.JsNumber.finite m := by
      unfold Script.liveCount
      rw [if_pos rfl]
      split
      · exact ⟨0, rfl⟩
      · exact foldl_jsMul_finite pl 1 1 (by decide) hbound (by omega)
    obtain ⟨m, hm⟩ := hfin
    refine ⟨m, hm, ?_⟩
    rw [hm]
    unfold Script.displayCount
    rw [if_neg (by intro h; cases h)]
  · intro hne hlt
    exact liveCount_combinations_exact pl hne hlt

/-- C22 witness: the lists `["a","b"]` and `["c"]`. -/
theorem liveCount_combinations_numeric_witness :
    Script.liveCount "combinations" [["a", "b"], ["c"]] = Script.JsNumber.finite 2 :=
  (liveCount_combinations_numeric [["a", "b"], ["c"]] (by decide) (by decide)).2
    (by decide) (by decide)

/-! ## `generatePermutationsSingleList` of src/script.js -/

theorem generatePermutations_flatMap {α : Type} (rem : List α) (h : rem ≠ []) :
    generatePermutations rem
      = rem.enum.flatMap (fun ix =>
          (generatePermutations (rem.take ix.1 ++ rem.drop (ix.1 + 1))).map
            (fun perm => ix.2 :: perm)) := by
  rw [generatePermutations_unfold]
  split
  · rename_i hle
    match rem, h, hle with
    | [x], _, _ => rfl
  · rfl

theorem forBreak_take {α : Type} (chunk : α → List String)
    (body : α → List String → List String) (items : List α)
    (hbody : ∀ a ∈ items, ∀ r : List String, r.length < 36 →
      body a r = r ++ (chunk a).take (36 - r.length)) :
    ∀ result : List String,
      Script.forBreak
          (fun result : List String =>
            decide (result.length ≥ Script.FREE_TIER_COMBINATION_LIMIT * 2)
              && decide (Script.FREE_TIER_COMBINATION_LIMIT > 0))
          body items result
        = result ++ (items.flatMap chunk).take (36 - result.length) := by
  induction items with
  | nil =>
    intro result
    simp [Script.forBreak]
  | cons a items ih =>
    intro result
    unfold Script.forBreak
    by_cases hstop : 36 ≤ result.length
    · have hs : (decide (result.length ≥ Script.FREE_TIER_COMBINATION_LIMIT * 2)
          && decide (Script.FREE_TIER_COMBINATION_LIMIT > 0)) = true := by
        simp [Script.FREE_TIER_COMBINATION_LIMIT, hstop]
      simp only [hs, if_true]
      have h0 : 36 - result.length = 0 := by omega
      rw [h0, List.take_zero, List.append_nil]
    · have hs : (decide (result.length ≥ Script.FREE_TIER_COMBINATION_LIMIT * 2)
          && decide (Script.FREE_TIER_COMBINATION_LIMIT > 0)) = false := by
        simp [Script.FREE_TIER_COMBINATION_LIMIT]
        omega
      simp only [hs, Bool.false_eq_true, if_false]
      rw [hbody a (List.mem_cons_self _ _) result (by omega),
        ih (fun b hb => hbody b (List.mem_cons_of_mem _ hb)),
        List.flatMap_cons, List.take_append_eq_append_take, List.append_assoc]
      congr 2
      rw [List.length_append, List.length_take]
      congr 1
      omega

theorem permute_spec (fuel : Nat) :
    ∀ (cur rem result : List String), rem.length ≤ fuel →
      (rem ≠ [] ∨ result.length < 36) →
      Script.permute fuel cur rem result
        = result ++ ((generatePermutations rem).map (fun p => join (cur ++ p) "")).take
            (36 - result.length) := by
  have hleaf : ∀ (cur result : List String), result.length < 36 →
      result ++ [join cur ""]
        = result ++ ((generatePermutations ([] : List String)).map
            (fun p => join (cur ++ p) "")).take (36 - result.length) := by
    intro cur result hlt
    have hperm : generatePermutations ([] : List String) = [[]] := rfl
    rw [hperm, List.map_cons, List.map_nil, List.append_nil]
    have hk : 36 - result.length = (36 - result.length - 1) + 1 := by omega
    rw [hk, List.take_succ_cons, List.take_nil]
  induction fuel with
  | zero =>
    intro cur rem result hlen hpre
    have hnil : rem = [] := List.length_eq_zero.mp (by omega)
    subst hnil
    have hlt : result.length < 36 := by
      rcases hpre with h | h
      · exact absurd rfl h
      · exact h
    unfold Script.permute
    rw [if_pos (List.length_nil)]
    exact hleaf cur result hlt
  | succ fuel ih =>
    intro cur rem result hlen hpre
    unfold Script.permute
    by_cases hrem : rem.length = 0
    · have hnil : rem = [] := List.length_eq_zero.mp hrem
      subst hnil
      have hlt : result.length < 36 := by
        rcases hpre with h | h
        · exact absurd rfl h
        · exact h
      rw [if_pos (List.length_nil)]
      exact hleaf cur result hlt
    · have hne : rem ≠ [] := fun h => hrem (by rw [h]; rfl)
      rw [if_neg hrem]
      rw [forBreak_take
        (fun ix : Nat × String =>
          (generatePermutations (rem.take ix.1 ++ rem.drop (ix.1 + 1))).map
            (fun p => join ((cur ++ [ix.2]) ++ p) ""))]
      · congr 2
        rw [generatePermutations_flatMap rem hne, List.map_flatMap]
        apply List.flatMap_congr
        intro ix _
        rw [List.map_map]
        apply List.map_congr_left
        intro p _
        simp
      · intro ix hix r hr
        have := rest_length hix
        exact ih (cur ++ [ix.2]) _ r (by omega) (Or.inr hr)

theorem generatePermutationsSingleList_eq (array : List String) :
    Script.generatePermutationsSingleList array
      = ((generatePermutations array).take 36).map (fun p => join p "") := by
  unfold Script.generatePermutationsSingleList
  rw [permute_spec array.length [] array [] (Nat.le_refl _) (Or.inr (by decide)),
    List.nil_append, List.map_take]
  rfl

/-- C27. For every array of `n` items, `generatePermutationsSingleList` returns the
first `min(n!, 36)` arrangements in lexicographic order of their index sequences
(36 is twice `FREE_TIER_COMBINATION_LIMIT`), each joined with the empty string: all
`n!` of them for `n <= 4`, and 36 for every `n >= 5`. -/
theorem generatePermutationsSingleList_first_36 (array : List String) :
    Script.FREE_TIER_COMBINATION_LIMIT * 2 = 36
    ∧ Script.generatePermutationsSingleList array
        = ((generatePermutations (List.finRange array.length)).take 36).map
            (fun p => join (p.map array.get) "")
    ∧ (generatePermutations (List.finRange array.length)).Pairwise
        (List.Lex (fun a b => a < b))
    ∧ (generatePermutations (List.finRange array.length)).length = array.length.factorial
    ∧ (Script.generatePermutationsSingleList array).length = min array.length.factorial 36
    ∧ (array.length ≤ 4 →
        (Script.generatePermutationsSingleList array).length = array.length.factorial)
    ∧ (5 ≤ array.length → (Script.generatePermutationsSingleList array).length = 36) := by
  have hidx : (generatePermutations (List.finRange array.length)).length
      = array.length.factorial := by
    have := generatePermutations_length_aux _ (List.finRange array.length) rfl
    rw [List.length_finRange] at this
    exact this
  have hlen : (Script.generatePermutationsSingleList array).length
      = min array.length.factorial 36 := by
    rw [generatePermutationsSingleList_eq, List.length_map, List.length_take,
      generatePermutations_length_aux _ array rfl, Nat.min_comm]
  refine ⟨rfl, ?_, ?_, hidx, hlen, ?_, ?_⟩
  · rw [generatePermutationsSingleList_eq]
    have hmap : generatePermutations array
        = (generatePermutations (List.finRange array.length)).map (fun p => p.map array.get) := by
      rw [← generatePermutations_map_aux array.get _ _ rfl, List.finRange_map_get]
    rw [hmap, ← List.map_take, List.map_map]
    rfl
  · exact generatePermutations_lex_aux _ (List.finRange array.length) rfl
      (List.pairwise_lt_finRange _)
  · intro h4
    rw [hlen]
    have : array.length.factorial ≤ 24 := by
      have := Nat.factorial_le h4
      simpa [Nat.factorial] using this
    omega
  · intro h5
    rw [hlen]
    have : 120 ≤ array.length.factorial := by
      have := Nat.factorial_le h5
      simpa [Nat.factorial] using this
    omega

/-- C27 witness: the three items a, b, c give all six arrangements. -/
theorem generatePermutationsSingleList_first_36_witness :
    Script.generatePermutationsSingleList ["a", "b", "c"]
      = ["abc", "acb", "bac", "bca", "cab", "cba"]
    ∧ (Script.generatePermutationsSingleList ["a", "b", "c"]).length = Nat.factorial 3 :=
  ⟨rfl, (generatePermutationsSingleList_first_36 ["a", "b", "c"]).2.2.2.2.2.1 (by decide)⟩

/-- C28 witness: the arrays `["ab","c"]`, `[]`, `["1","2"]`. -/
theorem script_cartesianProduct_rowMajor_witness :
    Script.cartesianProduct [["ab", "c"], [], ["1", "2"]]
      = [Combo.arr ["ab", "1"], Combo.arr ["ab", "2"], Combo.arr ["c", "1"],
         Combo.arr ["c", "2"]]
    ∧ Script.cartesianProduct [[], []] = [Combo.arr []] :=
  ⟨(script_cartesianProduct_rowMajor [["ab", "c"], [], ["1", "2"]]).1,
   (script_cartesianProduct_rowMajor [[], []]).2.1 (by decide)⟩

/-! ## The engine on the heap: the calls change no object they did not create -/

theorem lookup_mono {h h2 : Mem.Heap} {v : Mem.Val} {o : Mem.Obj} (hp : h <+: h2)
    (hl : Mem.lookup h v = some o) : Mem.lookup h2 v = some o := by
  obtain ⟨t, rfl⟩ := hp
  cases v with
  | undefined => cases hl
  | str s => cases hl
  | ref a =>
    simp only [Mem.lookup] at hl ⊢
    have hlt : a < h.length := by
      by_contra hge
      rw [List.getElem?_eq_none (Nat.le_of_not_lt hge)] at hl
      cases hl
    rw [List.getElem?_append_left hlt]
    exact hl

theorem lookup_alloc (h : Mem.Heap) (o : Mem.Obj) :
    Mem.lookup (Mem.alloc h o).2 (Mem.alloc h o).1 = some o := by
  simp only [Mem.alloc, Mem.lookup]
  exact List.getElem?_concat_length h o

theorem alloc_extends (h : Mem.Heap) (o : Mem.Obj) : h <+: (Mem.alloc h o).2 :=
  List.prefix_append h [o]

theorem elems_of_lookup {h : Mem.Heap} {v : Mem.Val} {es : List Mem.Val}
    (hl : Mem.lookup h v = some (Mem.Obj.array es)) : Mem.elems h v = es := by
  unfold Mem.elems
  rw [hl]

theorem absCombo_mono {h h2 : Mem.Heap} {v : Mem.Val} {c : Combo} (hp : h <+: h2)
    (ha : Mem.AbsCombo h v c) : Mem.AbsCombo h2 v c := by
  cases c with
  | str s => exact ha
  | arr xs => exact lookup_mono hp ha

theorem spread_of_absCombo {h : Mem.Heap} {v : Mem.Val} {c : Combo}
    (ha : Mem.AbsCombo h v c) : Mem.spread h v = (spread c).map Mem.Val.str := by
  cases c with
  | str s =>
    have hv : v = Mem.Val.str s := ha
    subst hv
    simp only [Mem.spread, spread, List.map_map]
    rfl
  | arr xs =>
    have hl : Mem.lookup h v = some (Mem.Obj.array (xs.map Mem.Val.str)) := ha
    cases v with
    | undefined => cases hl
    | str s => cases hl
    | ref a =>
      simp only [Mem.spread, spread]
      exact elems_of_lookup hl

theorem index_of_lookup {h : Mem.Heap} {arr : Mem.Val} {xs : List Mem.Val}
    (hl : Mem.lookup h arr = some (Mem.Obj.array xs)) (j : Nat) :
    Mem.index h arr j = xs.getD j Mem.Val.undefined := by
  unfold Mem.index
  rw [elems_of_lookup hl]

theorem range_map_getD {α : Type} (xs : List α) (d : α) :
    (List.range xs.length).map (fun j => xs.getD j d) = xs := by
  apply List.ext_getElem
  · simp
  · intro i h1 h2
    rw [List.getElem_map, List.getElem_range, List.getD_eq_getElem xs d h2]

theorem forall₂_range_getD {α δ : Type} (P : α → δ → Prop) (d : α) {xs : List α}
    {ds : List δ} (hall : List.Forall₂ P xs ds) :
    List.Forall₂ (fun j c => P (xs.getD j d) c) (List.range xs.length) ds := by
  have hmap : List.Forall₂ P ((List.range xs.length).map (fun j => xs.getD j d)) ds := by
    rw [range_map_getD]
    exact hall
  exact List.forall₂_map_left_iff.mp hmap

/-- A traversal changes no object that existed before it and relates its results to
those of a function on values, whenever the callback does so on each element and the
relations survive extensions of the heap. -/
theorem traverse_spec {β δ γ : Type} (f : Mem.Val → Mem.Heap → β × Mem.Heap)
    (I : Mem.Heap → Prop) (P : Mem.Heap → Mem.Val → δ → Prop)
    (R : Mem.Heap → β → γ → Prop) (g : δ → γ)
    (hI : ∀ h h2, h <+: h2 → I h → I h2)
    (hP : ∀ h h2 x d, h <+: h2 → P h x d → P h2 x d)
    (hR : ∀ h h2 b c, h <+: h2 → R h b c → R h2 b c)
    (hf : ∀ x d h, I h → P h x d → h <+: (f x h).2 ∧ R (f x h).2 (f x h).1 (g d))
    (arr : Mem.Val) (xs : List Mem.Val) :
    ∀ (js : List Nat) (ds : List δ) (h : Mem.Heap),
      Mem.lookup h arr = some (Mem.Obj.array xs) → I h →
      List.Forall₂ (fun j d => P h (xs.getD j Mem.Val.undefined) d) js ds →
      h <+: (Mem.traverse f arr js h).2
      ∧ List.Forall₂ (R (Mem.traverse f arr js h).2) (Mem.traverse f arr js h).1
          (ds.map g) := by
  intro js
  induction js with
  | nil =>
    intro ds h _ _ hall
    cases hall
    exact ⟨List.prefix_refl h, List.Forall₂.nil⟩
  | cons j js ih =>
    intro ds h harr hinv hall
    cases hall with
    | cons hxd hrest =>
      rename_i d ds2
      have hidx := index_of_lookup harr j
      obtain ⟨hp1, hr1⟩ := hf _ d h hinv hxd
      rw [← hidx] at hp1 hr1
      have hrest2 : List.Forall₂ (fun j2 d =>
          P (f (Mem.index h arr j) h).2 (xs.getD j2 Mem.Val.undefined) d) js ds2 :=
        List.Forall₂.imp (fun a b hab => hP _ _ _ b hp1 hab) hrest
      obtain ⟨hp2, hr2⟩ := ih ds2 (f (Mem.index h arr j) h).2 (lookup_mono hp1 harr)
        (hI _ _ hp1 hinv) hrest2
      simp only [Mem.traverse, List.map_cons]
      exact ⟨hp1.trans hp2, List.Forall₂.cons (hR _ _ _ _ hp2 hr1) hr2⟩

theorem traverse_range_spec {β δ γ : Type} (f : Mem.Val → Mem.Heap → β × Mem.Heap)
    (I : Mem.Heap → Prop) (P : Mem.Heap → Mem.Val → δ → Prop)
    (R : Mem.Heap → β → γ → Prop) (g : δ → γ)
    (hI : ∀ h h2, h <+: h2 → I h → I h2)
    (hP : ∀ h h2 x d, h <+: h2 → P h x d → P h2 x d)
    (hR : ∀ h h2 b c, h <+: h2 → R h b c → R h2 b c)
    (hf : ∀ x d h, I h → P h x d → h <+: (f x h).2 ∧ R (f x h).2 (f x h).1 (g d))
    (arr : Mem.Val) (xs : List Mem.Val) (ds : List δ) (h : Mem.Heap)
    (harr : Mem.lookup h arr = some (Mem.Obj.array xs)) (hinv : I h)
    (hall : List.Forall₂ (P h) xs ds) :
    h <+: (Mem.traverse f arr (List.range xs.length) h).2
    ∧ List.Forall₂ (R (Mem.traverse f arr (List.range xs.length) h).2)
        (Mem.traverse f arr (List.range xs.length) h).1 (ds.map g) :=
  traverse_spec f I P R g hI hP hR hf arr xs (List.range xs.length) ds h harr hinv
    (forall₂_range_getD (P h) Mem.Val.undefined hall)

theorem arrayMap_tuples {h : Mem.Heap} {combo curr : Mem.Val} {c : Combo} {cs : List String}
    (hcombo : Mem.AbsCombo h combo c)
    (hcurr : Mem.lookup h curr = some (Mem.Obj.array (cs.map Mem.Val.str))) :
    h <+: (Mem.arrayMap (Mem.tupleOf combo) curr h).2
    ∧ ∃ ts, Mem.lookup (Mem.arrayMap (Mem.tupleOf combo) curr h).2
          (Mem.arrayMap (Mem.tupleOf combo) curr h).1 = some (Mem.Obj.array ts)
        ∧ List.Forall₂ (Mem.AbsCombo (Mem.arrayMap (Mem.tupleOf combo) curr h).2)
            ts (cs.map (fun item => Combo.arr (spread c ++ [item]))) := by
  have hspec := traverse_range_spec (Mem.tupleOf combo)
    (fun h => Mem.AbsCombo h combo c)
    (fun _ x (s : String) => x = Mem.Val.str s)
    (fun h t c2 => Mem.AbsCombo h t c2)
    (fun s => Combo.arr (spread c ++ [s]))
    (fun _ _ hp ha => absCombo_mono hp ha)
    (fun _ _ _ _ _ hx => hx)
    (fun _ _ _ _ hp ha => absCombo_mono hp ha)
    (by
      intro x s h0 hinv hx
      refine ⟨alloc_extends _ _, ?_⟩
      show Mem.lookup _ _ = some _
      unfold Mem.tupleOf
      rw [lookup_alloc, spread_of_absCombo hinv, hx, List.map_append]
      rfl)
    curr (cs.map Mem.Val.str) cs h hcurr hcombo
    (List.forall₂_map_left_iff.mpr (List.forall₂_same.mpr (fun _ _ => rfl)))
  unfold Mem.arrayMap
  rw [elems_of_lookup hcurr]
  refine ⟨hspec.1.trans (alloc_extends _ _), _, lookup_alloc _ _, ?_⟩
  exact List.Forall₂.imp (fun a b hab => absCombo_mono (alloc_extends _ _) hab) hspec.2

theorem reduceStep_spec {acc : Mem.Val × Mem.Heap} {curr : Mem.Val} {outs : List Mem.Val}
    {accAbs : List Combo} {cs : List String}
    (hacc : Mem.lookup acc.2 acc.1 = some (Mem.Obj.array outs))
    (habs : List.Forall₂ (Mem.AbsCombo acc.2) outs accAbs)
    (hcurr : Mem.lookup acc.2 curr = some (Mem.Obj.array (cs.map Mem.Val.str))) :
    acc.2 <+: (Mem.reduceStep acc curr).2
    ∧ ∃ outs2, Mem.lookup (Mem.reduceStep acc curr).2 (Mem.reduceStep acc curr).1
          = some (Mem.Obj.array outs2)
        ∧ List.Forall₂ (Mem.AbsCombo (Mem.reduceStep acc curr).2) outs2
            (accAbs.flatMap (fun combo =>
              cs.map (fun item => Combo.arr (spread combo ++ [item])))) := by
  have hspec := traverse_range_spec
    (fun x h => ((Mem.flattenOne (Mem.arrayMap (Mem.tupleOf x) curr h).2
        (Mem.arrayMap (Mem.tupleOf x) curr h).1), (Mem.arrayMap (Mem.tupleOf x) curr h).2))
    (fun h => Mem.lookup h curr = some (Mem.Obj.array (cs.map Mem.Val.str)))
    (fun h x (c : Combo) => Mem.AbsCombo h x c)
    (fun h (vs : List Mem.Val) (cs2 : List Combo) => List.Forall₂ (Mem.AbsCombo h) vs cs2)
    (fun c => cs.map (fun item => Combo.arr (spread c ++ [item])))
    (fun _ _ hp hl => lookup_mono hp hl)
    (fun _ _ _ _ hp ha => absCombo_mono hp ha)
    (fun _ _ _ _ hp ha => List.Forall₂.imp (fun a b hab => absCombo_mono hp hab) ha)
    (by
      intro x c h0 hinv hx
      obtain ⟨hp, ts, hts, hall⟩ := arrayMap_tuples hx hinv
      refine ⟨hp, ?_⟩
      simp only [Mem.flattenOne, hts]
      exact hall)
    acc.1 outs accAbs acc.2 hacc hcurr habs
  unfold Mem.reduceStep Mem.arrayFlatMap
  rw [elems_of_lookup hacc]
  refine ⟨hspec.1.trans (alloc_extends _ _), _, lookup_alloc _ _, ?_⟩
  rw [List.flatMap_def]
  exact List.Forall₂.imp (fun a b hab => absCombo_mono (alloc_extends _ _) hab)
    (List.rel_flatten hspec.2)

theorem reduce_spec {arrays : Mem.Val} {avs : List Mem.Val} (ks : List Nat) :
    ∀ (restItems : List (List String)) (acc : Mem.Val × Mem.Heap) (outs : List Mem.Val)
      (accAbs : List Combo),
      Mem.lookup acc.2 arrays = some (Mem.Obj.array avs) →
      Mem.lookup acc.2 acc.1 = some (Mem.Obj.array outs) →
      List.Forall₂ (Mem.AbsCombo acc.2) outs accAbs →
      List.Forall₂ (fun k (items : List String) =>
        Mem.lookup acc.2 (avs.getD (k + 1) Mem.Val.undefined)
          = some (Mem.Obj.array (items.map Mem.Val.str))) ks restItems →
      acc.2 <+: (ks.foldl
          (fun acc k => Mem.reduceStep acc (Mem.index acc.2 arrays (k + 1))) acc).2
      ∧ ∃ outs2, Mem.lookup
            (ks.foldl (fun acc k => Mem.reduceStep acc (Mem.index acc.2 arrays (k + 1))) acc).2
            (ks.foldl (fun acc k => Mem.reduceStep acc (Mem.index acc.2 arrays (k + 1))) acc).1
            = some (Mem.Obj.array outs2)
          ∧ List.Forall₂ (Mem.AbsCombo
              (ks.foldl
                (fun acc k => Mem.reduceStep acc (Mem.index acc.2 arrays (k + 1))) acc).2)
              outs2
              (restItems.foldl
                (fun acc curr =>
                  acc.flatMap (fun combo =>
                    curr.map (fun item => Combo.arr (spread combo ++ [item]))))
                accAbs) := by
  induction ks with
  | nil =>
    intro restItems acc outs accAbs _ hacc habs hall
    cases hall
    exact ⟨List.prefix_refl _, outs, hacc, habs⟩
  | cons k ks ih =>
    intro restItems acc outs accAbs harr hacc habs hall
    cases hall with
    | cons hcurr hrest =>
      rename_i cs restItems2
      rw [← index_of_lookup harr (k + 1)] at hcurr
      obtain ⟨hp, outs2, hl2, hall2⟩ := reduceStep_spec hacc habs hcurr
      have hrest2 : List.Forall₂ (fun k2 (items : List String) =>
          Mem.lookup (Mem.reduceStep acc (Mem.index acc.2 arrays (k + 1))).2
            (avs.getD (k2 + 1) Mem.Val.undefined)
            = some (Mem.Obj.array (items.map Mem.Val.str))) ks restItems2 :=
        List.Forall₂.imp (fun a b hab => lookup_mono hp hab) hrest
      obtain ⟨hp3, outs3, hl3, hall3⟩ := ih restItems2
        (Mem.reduceStep acc (Mem.index acc.2 arrays (k + 1))) outs2 _
        (lookup_mono hp harr) hl2 hall2 hrest2
      rw [List.foldl_cons, List.foldl_cons]
      exact ⟨hp.trans hp3, outs3, hl3, hall3⟩

/-- On the heap `cartesianProduct` changes no object it is given and returns an array
holding the elements the value-level `cartesianProduct` computes. -/
theorem mem_cartesianProduct_spec {h : Mem.Heap} {arrays : Mem.Val} {avs : List Mem.Val}
    {itemss : List (List String)}
    (harr : Mem.lookup h arrays = some (Mem.Obj.array avs))
    (hitems : List.Forall₂ (fun v (items : List String) =>
      Mem.lookup h v = some (Mem.Obj.array (items.map Mem.Val.str))) avs itemss) :
    h <+: (Mem.cartesianProduct arrays h).2
    ∧ ∃ outs, Mem.lookup (Mem.cartesianProduct arrays h).2 (Mem.cartesianProduct arrays h).1
          = some (Mem.Obj.array outs)
        ∧ List.Forall₂ (Mem.AbsCombo (Mem.cartesianProduct arrays h).2) outs
            (cartesianProduct itemss) := by
  have hlen : avs.length = itemss.length := hitems.length_eq
  have hany : (avs.any fun arr => decide ((Mem.elems h arr).length = 0))
      = (itemss.any fun arr => decide (arr.length = 0)) := by
    clear harr hlen
    induction hitems with
    | nil => rfl
    | cons hab _ ih =>
      simp only [List.any_cons, ih, elems_of_lookup hab, List.length_map]
  have hidx := index_of_lookup harr 0
  unfold Mem.cartesianProduct cartesianProduct
  rw [elems_of_lookup harr, hany, hidx]
  split
  · refine ⟨(alloc_extends _ _).trans (alloc_extends _ _), _, lookup_alloc _ _, ?_⟩
    rename_i hz
    rw [hlen] at hz
    rw [if_pos hz]
    refine List.Forall₂.cons ?_ List.Forall₂.nil
    show Mem.lookup _ _ = some _
    exact lookup_mono (alloc_extends _ _) (lookup_alloc _ _)
  · rename_i hz
    rw [hlen] at hz
    rw [if_neg hz]
    split
    · exact ⟨alloc_extends _ _, _, lookup_alloc _ _, List.Forall₂.nil⟩
    · cases hitems with
      | nil => exact absurd rfl hz
      | @cons firstV first restV restItems hfirst hrest =>
        simp only [List.length_cons, Nat.add_sub_cancel, List.getD_cons_zero]
        exact reduce_spec (List.range restV.length) restItems (firstV, h)
          (first.map Mem.Val.str) (first.map Combo.str) harr hfirst
          (List.forall₂_map_left_iff.mpr (List.forall₂_map_right_iff.mpr
            (List.forall₂_same.mpr (fun _ _ => rfl))))
          (forall₂_range_getD (fun v (items : List String) =>
            Mem.lookup h v = some (Mem.Obj.array (items.map Mem.Val.str)))
            Mem.Val.undefined hrest)

theorem sameExcept_refl (r : Nat) (h : Mem.Heap) : Mem.SameExcept r h h :=
  ⟨Nat.le_refl _, fun _ _ _ => rfl⟩

theorem sameExcept_trans {r : Nat} {h1 h2 h3 : Mem.Heap} (h12 : Mem.SameExcept r h1 h2)
    (h23 : Mem.SameExcept r h2 h3) : Mem.SameExcept r h1 h3 :=
  ⟨Nat.le_trans h12.1 h23.1, fun a hne hlt =>
    (h23.2 a hne (Nat.lt_of_lt_of_le hlt h12.1)).trans (h12.2 a hne hlt)⟩

theorem sameExcept_of_extends (r : Nat) {h h2 : Mem.Heap} (hp : h <+: h2) :
    Mem.SameExcept r h h2 := by
  obtain ⟨t, rfl⟩ := hp
  refine ⟨by rw [List.length_append]; omega, fun a _ hlt => List.getElem?_append_left hlt⟩

theorem extends_of_sameExcept {r : Nat} {h h0 h2 : Mem.Heap} (hp : h <+: h0)
    (hr : h.length ≤ r) (hs : Mem.SameExcept r h0 h2) : h <+: h2 := by
  rw [List.prefix_iff_eq_take]
  apply List.ext_getElem?
  intro n
  by_cases hn : n < h.length
  · have hlen0 := hp.length_le
    rw [List.getElem?_take_of_lt hn, hs.2 n (by omega) (by omega)]
    obtain ⟨t, rfl⟩ := hp
    exact (List.getElem?_append_left hn).symm
  · rw [List.getElem?_eq_none (Nat.le_of_not_lt hn), List.getElem?_take, if_neg hn]

theorem lookup_sameExcept {r : Nat} {h h2 : Mem.Heap} {v : Mem.Val} {o : Mem.Obj}
    (hs : Mem.SameExcept r h h2) (hne : v ≠ Mem.Val.ref r) (hl : Mem.lookup h v = some o) :
    Mem.lookup h2 v = some o := by
  cases v with
  | undefined => cases hl
  | str s => cases hl
  | ref a =>
    simp only [Mem.lookup] at hl ⊢
    have hlt : a < h.length := by
      by_contra hge
      rw [List.getElem?_eq_none (Nat.le_of_not_lt hge)] at hl
      cases hl
    rw [hs.2 a (fun hEq => hne (by rw [hEq])) hlt]
    exact hl

theorem pushTuple_spec {r i : Nat} {arr perm : Mem.Val} {es p doneRefs : List Mem.Val}
    {h : Mem.Heap} (hres : h[r]? = some (Mem.Obj.array doneRefs))
    (harr : Mem.lookup h arr = some (Mem.Obj.array es))
    (hperm : Mem.lookup h perm = some (Mem.Obj.array p)) :
    Mem.SameExcept r h (Mem.pushTuple arr (Mem.Val.ref r) i perm h)
    ∧ (Mem.pushTuple arr (Mem.Val.ref r) i perm h)[r]?
        = some (Mem.Obj.array (doneRefs ++ [Mem.Val.ref h.length]))
    ∧ (Mem.pushTuple arr (Mem.Val.ref r) i perm h)[h.length]?
        = some (Mem.Obj.array (es.getD i Mem.Val.undefined :: p))
    ∧ r < h.length := by
  have hr : r < h.length := by
    by_contra hge
    rw [List.getElem?_eq_none (Nat.le_of_not_lt hge)] at hres
    cases hres
  have hspread : Mem.spread h perm = p := by
    cases perm with
    | undefined => cases hperm
    | str s => cases hperm
    | ref a => exact elems_of_lookup hperm
  have hres2 : (h ++ [Mem.Obj.array (es.getD i Mem.Val.undefined :: p)])[r]?
      = some (Mem.Obj.array doneRefs) := by
    rw [List.getElem?_append_left hr]
    exact hres
  have hpush : Mem.pushTuple arr (Mem.Val.ref r) i perm h
      = (h ++ [Mem.Obj.array (es.getD i Mem.Val.undefined :: p)]).set r
          (Mem.Obj.array (doneRefs ++ [Mem.Val.ref h.length])) := by
    simp only [Mem.pushTuple, Mem.alloc, Mem.push, hspread, index_of_lookup harr, hres2]
  rw [hpush]
  refine ⟨⟨?_, ?_⟩, ?_, ?_, hr⟩
  · rw [List.length_set, List.length_append]
    omega
  · intro a hne hlt
    rw [List.getElem?_set_ne (fun hEq => hne hEq.symm), List.getElem?_append_left hlt]
  · rw [List.getElem?_set_self (by rw [List.length_append]; omega)]
  · rw [List.getElem?_set_ne (by omega)]
    exact List.getElem?_concat_length h _

theorem pushTuples_spec {r i : Nat} {arr perms : Mem.Val} {es outs : List Mem.Val}
    (harrne : arr ≠ Mem.Val.ref r) (hpermsne : perms ≠ Mem.Val.ref r) (js : List Nat) :
    ∀ (pabs : List (List Mem.Val)) (h : Mem.Heap) (doneRefs : List Mem.Val),
      h[r]? = some (Mem.Obj.array doneRefs) →
      Mem.lookup h arr = some (Mem.Obj.array es) →
      Mem.lookup h perms = some (Mem.Obj.array outs) →
      List.Forall₂ (fun j p =>
        Mem.lookup h (outs.getD j Mem.Val.undefined) = some (Mem.Obj.array p)
          ∧ ∃ a, outs.getD j Mem.Val.undefined = Mem.Val.ref a ∧ r < a) js pabs →
      Mem.SameExcept r h
        (js.foldl (fun h j => Mem.pushTuple arr (Mem.Val.ref r) i (Mem.index h perms j) h) h)
      ∧ ∃ newRefs,
          (js.foldl
            (fun h j => Mem.pushTuple arr (Mem.Val.ref r) i (Mem.index h perms j) h) h)[r]?
            = some (Mem.Obj.array (doneRefs ++ newRefs))
          ∧ List.Forall₂ (fun v p =>
              Mem.lookup
                (js.foldl
                  (fun h j => Mem.pushTuple arr (Mem.Val.ref r) i (Mem.index h perms j) h) h) v
                = some (Mem.Obj.array p) ∧ ∃ a, v = Mem.Val.ref a ∧ r < a)
              newRefs (pabs.map (fun p => es.getD i Mem.Val.undefined :: p)) := by
  induction js with
  | nil =>
    intro pabs h doneRefs hres _ _ hall
    cases hall
    exact ⟨sameExcept_refl _ _, [], by simpa using hres, List.Forall₂.nil⟩
  | cons j js ih =>
    intro pabs h doneRefs hres harr hperms hall
    cases hall with
    | @cons _ p _ pabs2 hperm hrest =>
      have hidx := index_of_lookup hperms j
      obtain ⟨hs1, hres1, hnew1, hr⟩ := pushTuple_spec (i := i) hres harr hperm.1
      rw [← hidx] at hs1 hres1 hnew1
      have hrest2 : List.Forall₂ (fun j2 p =>
          Mem.lookup (Mem.pushTuple arr (Mem.Val.ref r) i (Mem.index h perms j) h)
              (outs.getD j2 Mem.Val.undefined) = some (Mem.Obj.array p)
            ∧ ∃ a, outs.getD j2 Mem.Val.undefined = Mem.Val.ref a ∧ r < a) js pabs2 := by
        refine List.Forall₂.imp ?_ hrest
        rintro j2 q ⟨hl, a, ha, hlt⟩
        refine ⟨lookup_sameExcept hs1 ?_ hl, a, ha, hlt⟩
        rw [ha]
        intro hEq
        cases hEq
        omega
      obtain ⟨hs2, newRefs, hres2, hall2⟩ := ih pabs2 _ _ hres1
        (lookup_sameExcept hs1 harrne harr) (lookup_sameExcept hs1 hpermsne hperms) hrest2
      rw [List.foldl_cons]
      refine ⟨sameExcept_trans hs1 hs2, Mem.Val.ref h.length :: newRefs, ?_, ?_⟩
      · rw [hres2, List.append_assoc]
        rfl
      · rw [List.map_cons]
        refine List.Forall₂.cons ⟨?_, h.length, rfl, hr⟩ hall2
        exact lookup_sameExcept hs2 (by intro hEq; cases hEq; omega) hnew1

theorem forEach_pushTuple_spec {r i : Nat} {arr perms : Mem.Val} {es outs : List Mem.Val}
    {pabs : List (List Mem.Val)} {h : Mem.Heap} {doneRefs : List Mem.Val}
    (harrne : arr ≠ Mem.Val.ref r) (hpermsne : perms ≠ Mem.Val.ref r)
    (hres : h[r]? = some (Mem.Obj.array doneRefs))
    (harr : Mem.lookup h arr = some (Mem.Obj.array es))
    (hperms : Mem.lookup h perms = some (Mem.Obj.array outs))
    (hall : List.Forall₂ (fun v p =>
      Mem.lookup h v = some (Mem.Obj.array p) ∧ ∃ a, v = Mem.Val.ref a ∧ r < a) outs pabs) :
    Mem.SameExcept r h (Mem.forEach (Mem.pushTuple arr (Mem.Val.ref r) i) perms h)
    ∧ ∃ newRefs, (Mem.forEach (Mem.pushTuple arr (Mem.Val.ref r) i) perms h)[r]?
          = some (Mem.Obj.array (doneRefs ++ newRefs))
        ∧ List.Forall₂ (fun v p =>
            Mem.lookup (Mem.forEach (Mem.pushTuple arr (Mem.Val.ref r) i) perms h) v
              = some (Mem.Obj.array p) ∧ ∃ a, v = Mem.Val.ref a ∧ r < a)
            newRefs (pabs.map (fun p => es.getD i Mem.Val.undefined :: p)) := by
  unfold Mem.forEach
  rw [elems_of_lookup hperms]
  exact pushTuples_spec harrne hpermsne (List.range outs.length) pabs h doneRefs hres harr
    hperms
    (forall₂_range_getD (fun v p =>
      Mem.lookup h v = some (Mem.Obj.array p) ∧ ∃ a, v = Mem.Val.ref a ∧ r < a)
      Mem.Val.undefined hall)

theorem loopBody_eq {recur : Mem.Val → Mem.Heap → Mem.Val × Mem.Heap} {arr result : Mem.Val}
    {h : Mem.Heap} {es : List Mem.Val} (i : Nat)
    (harr : Mem.lookup h arr = some (Mem.Obj.array es)) :
    Mem.loopBody recur arr result i h
      = Mem.forEach (Mem.pushTuple arr result i)
          (recur (Mem.Val.ref (h.length + 2))
            (h ++ [Mem.Obj.array (es.take i), Mem.Obj.array (es.drop (i + 1)),
              Mem.Obj.array (es.take i ++ es.drop (i + 1))])).1
          (recur (Mem.Val.ref (h.length + 2))
            (h ++ [Mem.Obj.array (es.take i), Mem.Obj.array (es.drop (i + 1)),
              Mem.Obj.array (es.take i ++ es.drop (i + 1))])).2 := by
  have h1 : Mem.elems h arr = es := elems_of_lookup harr
  have h2 : Mem.elems (h ++ [Mem.Obj.array (es.take i)]) arr = es :=
    elems_of_lookup (lookup_mono (List.prefix_append _ _) harr)
  have h3 : Mem.elems
      (h ++ [Mem.Obj.array (es.take i)] ++ [Mem.Obj.array (es.drop (i + 1))])
      (Mem.Val.ref h.length) = es.take i := by
    apply elems_of_lookup
    exact lookup_mono (List.prefix_append _ _) (lookup_alloc h _)
  have h4 : Mem.elems
      (h ++ [Mem.Obj.array (es.take i)] ++ [Mem.Obj.array (es.drop (i + 1))])
      (Mem.Val.ref (h ++ [Mem.Obj.array (es.take i)]).length) = es.drop (i + 1) :=
    elems_of_lookup (lookup_alloc _ _)
  have hlen : (h ++ [Mem.Obj.array (es.take i)]
      ++ [Mem.Obj.array (es.drop (i + 1))]).length = h.length + 2 := by
    simp
  have happ : h ++ [Mem.Obj.array (es.take i)] ++ [Mem.Obj.array (es.drop (i + 1))]
        ++ [Mem.Obj.array (es.take i ++ es.drop (i + 1))]
      = h ++ [Mem.Obj.array (es.take i), Mem.Obj.array (es.drop (i + 1)),
          Mem.Obj.array (es.take i ++ es.drop (i + 1))] := by
    simp
  simp only [Mem.loopBody, Mem.alloc, h1, h2, h3, h4, hlen, happ]

theorem loopBody_spec {recur : Mem.Val → Mem.Heap → Mem.Val × Mem.Heap}
    {pureRec : List Mem.Val → List (List Mem.Val)}
    (hrec : ∀ (arr : Mem.Val) (h : Mem.Heap) (es : List Mem.Val),
      Mem.lookup h arr = some (Mem.Obj.array es) →
      h <+: (recur arr h).2 ∧ (recur arr h).1 = Mem.Val.ref h.length
      ∧ ∃ outs, Mem.lookup (recur arr h).2 (recur arr h).1 = some (Mem.Obj.array outs)
          ∧ List.Forall₂ (fun v p =>
              Mem.lookup (recur arr h).2 v = some (Mem.Obj.array p)
                ∧ (v = arr ∨ ∃ a, v = Mem.Val.ref a ∧ h.length ≤ a)) outs (pureRec es))
    {r : Nat} {arr : Mem.Val} {h : Mem.Heap} {es doneRefs : List Mem.Val} (i : Nat)
    (harrne : arr ≠ Mem.Val.ref r)
    (harr : Mem.lookup h arr = some (Mem.Obj.array es))
    (hres : h[r]? = some (Mem.Obj.array doneRefs)) :
    Mem.SameExcept r h (Mem.loopBody recur arr (Mem.Val.ref r) i h)
    ∧ ∃ newRefs, (Mem.loopBody recur arr (Mem.Val.ref r) i h)[r]?
          = some (Mem.Obj.array (doneRefs ++ newRefs))
        ∧ List.Forall₂ (fun v p =>
            Mem.lookup (Mem.loopBody recur arr (Mem.Val.ref r) i h) v
              = some (Mem.Obj.array p) ∧ ∃ a, v = Mem.Val.ref a ∧ r < a)
            newRefs ((pureRec (es.take i ++ es.drop (i + 1))).map
              (fun p => es.getD i Mem.Val.undefined :: p)) := by
  have hr : r < h.length := by
    by_contra hge
    rw [List.getElem?_eq_none (Nat.le_of_not_lt hge)] at hres
    cases hres
  rw [loopBody_eq i harr]
  generalize hhc : h ++ [Mem.Obj.array (es.take i), Mem.Obj.array (es.drop (i + 1)),
    Mem.Obj.array (es.take i ++ es.drop (i + 1))] = hc
  have hpc : h <+: hc := by
    rw [← hhc]
    exact List.prefix_append _ _
  have hlenc : hc.length = h.length + 3 := by
    rw [← hhc]
    simp
  have hrest : Mem.lookup hc (Mem.Val.ref (h.length + 2))
      = some (Mem.Obj.array (es.take i ++ es.drop (i + 1))) := by
    rw [← hhc]
    simp only [Mem.lookup]
    rw [List.getElem?_append_right (Nat.le_add_right _ _)]
    simp
  obtain ⟨hpd, hfresh, outs, houts, hall⟩ := hrec _ hc _ hrest
  have hresd : ((recur (Mem.Val.ref (h.length + 2)) hc).2)[r]?
      = some (Mem.Obj.array doneRefs) :=
    lookup_mono (hpc.trans hpd) (v := Mem.Val.ref r) hres
  have hall2 : List.Forall₂ (fun v p =>
      Mem.lookup (recur (Mem.Val.ref (h.length + 2)) hc).2 v = some (Mem.Obj.array p)
        ∧ ∃ a, v = Mem.Val.ref a ∧ r < a) outs
      (pureRec (es.take i ++ es.drop (i + 1))) := by
    refine List.Forall₂.imp ?_ hall
    rintro v p ⟨hl, hv⟩
    refine ⟨hl, ?_⟩
    rcases hv with rfl | ⟨a, rfl, ha⟩
    · exact ⟨_, rfl, by omega⟩
    · exact ⟨a, rfl, by omega⟩
  have hpermsne : (recur (Mem.Val.ref (h.length + 2)) hc).1 ≠ Mem.Val.ref r := by
    rw [hfresh]
    intro hEq
    cases hEq
    omega
  obtain ⟨hs, newRefs, hresE, hallE⟩ := forEach_pushTuple_spec (i := i) harrne hpermsne hresd
    (lookup_mono (hpc.trans hpd) harr) houts hall2
  exact ⟨sameExcept_trans (sameExcept_of_extends r (hpc.trans hpd)) hs, newRefs, hresE, hallE⟩

theorem enum_drop_cons {α : Type} {es : List α} {i : Nat} (d : α) (hi : i < es.length) :
    es.enum.drop i = (i, es.getD i d) :: es.enum.drop (i + 1) := by
  have hi2 : i < es.enum.length := by
    rw [List.enum_length]
    exact hi
  rw [List.drop_eq_getElem_cons hi2, List.getElem_enum, List.getD_eq_getElem es d hi]

/-- The loop of `generatePermutations` writes to `result` only, leaves in it the
arrangements the value-level loop appends, and stops because `i` reaches
`arr.length`: more iterations allowed give the same heap. -/
theorem forLoop_spec {recur : Mem.Val → Mem.Heap → Mem.Val × Mem.Heap}
    {pureRec : List Mem.Val → List (List Mem.Val)}
    (hrec : ∀ (arr : Mem.Val) (h : Mem.Heap) (es : List Mem.Val),
      Mem.lookup h arr = some (Mem.Obj.array es) →
      h <+: (recur arr h).2 ∧ (recur arr h).1 = Mem.Val.ref h.length
      ∧ ∃ outs, Mem.lookup (recur arr h).2 (recur arr h).1 = some (Mem.Obj.array outs)
          ∧ List.Forall₂ (fun v p =>
              Mem.lookup (recur arr h).2 v = some (Mem.Obj.array p)
                ∧ (v = arr ∨ ∃ a, v = Mem.Val.ref a ∧ h.length ≤ a)) outs (pureRec es))
    {r : Nat} {arr : Mem.Val} {es : List Mem.Val} (harrne : arr ≠ Mem.Val.ref r)
    (fuel : Nat) :
    ∀ (i : Nat) (h : Mem.Heap) (doneRefs : List Mem.Val) (doneAbs : List (List Mem.Val)),
      es.length - i ≤ fuel →
      Mem.lookup h arr = some (Mem.Obj.array es) →
      h[r]? = some (Mem.Obj.array doneRefs) →
      List.Forall₂ (fun v p =>
        Mem.lookup h v = some (Mem.Obj.array p) ∧ ∃ a, v = Mem.Val.ref a ∧ r < a)
        doneRefs doneAbs →
      Mem.SameExcept r h
        (Mem.forLoop (Mem.loopBody recur arr (Mem.Val.ref r)) arr fuel i h)
      ∧ (∃ refs,
          (Mem.forLoop (Mem.loopBody recur arr (Mem.Val.ref r)) arr fuel i h)[r]?
            = some (Mem.Obj.array refs)
          ∧ List.Forall₂ (fun v p =>
              Mem.lookup (Mem.forLoop (Mem.loopBody recur arr (Mem.Val.ref r)) arr fuel i h) v
                = some (Mem.Obj.array p) ∧ ∃ a, v = Mem.Val.ref a ∧ r < a)
              refs (doneAbs ++ (es.enum.drop i).flatMap (fun ix =>
                (pureRec (es.take ix.1 ++ es.drop (ix.1 + 1))).map (fun p => ix.2 :: p))))
      ∧ ∀ more, Mem.forLoop (Mem.loopBody recur arr (Mem.Val.ref r)) arr (fuel + more) i h
          = Mem.forLoop (Mem.loopBody recur arr (Mem.Val.ref r)) arr fuel i h := by
  induction fuel with
  | zero =>
    intro i h doneRefs doneAbs hfuel harr hres hdone
    have hge : es.length ≤ i := by omega
    have hdrop : es.enum.drop i = [] := by
      apply List.drop_eq_nil_of_le
      rw [List.enum_length]
      exact hge
    refine ⟨sameExcept_refl _ _, ⟨doneRefs, hres, ?_⟩, ?_⟩
    · rw [hdrop]
      simpa [Mem.forLoop] using hdone
    · intro more
      cases more with
      | zero => rfl
      | succ m =>
        simp only [Nat.zero_add, Mem.forLoop, elems_of_lookup harr]
        rw [if_neg (by omega)]
  | succ fuel ih =>
    intro i h doneRefs doneAbs hfuel harr hres hdone
    by_cases hi : i < es.length
    · obtain ⟨hs1, newRefs, hres1, hnew1⟩ := loopBody_spec hrec i harrne harr hres
      have hdone1 : List.Forall₂ (fun v p =>
          Mem.lookup (Mem.loopBody recur arr (Mem.Val.ref r) i h) v = some (Mem.Obj.array p)
            ∧ ∃ a, v = Mem.Val.ref a ∧ r < a) (doneRefs ++ newRefs)
          (doneAbs ++ (pureRec (es.take i ++ es.drop (i + 1))).map
            (fun p => es.getD i Mem.Val.undefined :: p)) := by
        refine List.rel_append ?_ hnew1
        refine List.Forall₂.imp ?_ hdone
        rintro v p ⟨hl, a, rfl, ha⟩
        exact ⟨lookup_sameExcept hs1 (by intro hEq; cases hEq; omega) hl, a, rfl, ha⟩
      obtain ⟨hs2, ⟨refs, hres2, hall2⟩, hmore⟩ :=
        ih (i + 1) _ _ _ (by omega) (lookup_sameExcept hs1 harrne harr) hres1 hdone1
      have hstep : ∀ n, Mem.forLoop (Mem.loopBody recur arr (Mem.Val.ref r)) arr (n + 1) i h
          = Mem.forLoop (Mem.loopBody recur arr (Mem.Val.ref r)) arr n (i + 1)
              (Mem.loopBody recur arr (Mem.Val.ref r) i h) := by
        intro n
        simp only [Mem.forLoop, elems_of_lookup harr, if_pos hi]
      rw [hstep]
      refine ⟨sameExcept_trans hs1 hs2, ⟨refs, hres2, ?_⟩, ?_⟩
      · rw [enum_drop_cons Mem.Val.undefined hi, List.flatMap_cons, ← List.append_assoc]
        exact hall2
      · intro more
        rw [Nat.add_right_comm, hstep]
        exact hmore more
    · have hdrop : es.enum.drop i = [] := by
        apply List.drop_eq_nil_of_le
        rw [List.enum_length]
        omega
      have hstop : ∀ n, Mem.forLoop (Mem.loopBody recur arr (Mem.Val.ref r)) arr n i h = h := by
        intro n
        cases n with
        | zero => rfl
        | succ m => simp only [Mem.forLoop, elems_of_lookup harr, if_neg hi]
      rw [hstop]
      refine ⟨sameExcept_refl _ _, ⟨doneRefs, hres, ?_⟩, fun more => hstop _⟩
      rw [hdrop]
      simpa using hdone

/-- On the heap `generatePermutations` changes no object it is given: it returns a
new array holding the arrangements the value-level recursion computes, each of them
`arr` itself or a new array. -/
theorem mem_generatePermutationsAux_spec (fuel : Nat) :
    ∀ (arr : Mem.Val) (h : Mem.Heap) (es : List Mem.Val),
      Mem.lookup h arr = some (Mem.Obj.array es) →
      h <+: (Mem.generatePermutationsAux fuel arr h).2
      ∧ (Mem.generatePermutationsAux fuel arr h).1 = Mem.Val.ref h.length
      ∧ ∃ outs, Mem.lookup (Mem.generatePermutationsAux fuel arr h).2
            (Mem.generatePermutationsAux fuel arr h).1 = some (Mem.Obj.array outs)
          ∧ List.Forall₂ (fun v p =>
              Mem.lookup (Mem.generatePermutationsAux fuel arr h).2 v = some (Mem.Obj.array p)
                ∧ (v = arr ∨ ∃ a, v = Mem.Val.ref a ∧ h.length ≤ a))
              outs (generatePermutationsAux fuel es) := by
  have hbase : ∀ (arr : Mem.Val) (h : Mem.Heap) (es : List Mem.Val),
      Mem.lookup h arr = some (Mem.Obj.array es) →
      h <+: (Mem.alloc h (Mem.Obj.array [arr])).2
      ∧ (Mem.alloc h (Mem.Obj.array [arr])).1 = Mem.Val.ref h.length
      ∧ ∃ outs, Mem.lookup (Mem.alloc h (Mem.Obj.array [arr])).2
            (Mem.alloc h (Mem.Obj.array [arr])).1 = some (Mem.Obj.array outs)
          ∧ List.Forall₂ (fun v p =>
              Mem.lookup (Mem.alloc h (Mem.Obj.array [arr])).2 v = some (Mem.Obj.array p)
                ∧ (v = arr ∨ ∃ a, v = Mem.Val.ref a ∧ h.length ≤ a)) outs [es] := by
    intro arr h es harr
    exact ⟨alloc_extends _ _, rfl, [arr], lookup_alloc _ _,
      List.Forall₂.cons ⟨lookup_mono (alloc_extends _ _) harr, Or.inl rfl⟩ List.Forall₂.nil⟩
  induction fuel with
  | zero =>
    intro arr h es harr
    exact hbase arr h es harr
  | succ fuel ih =>
    intro arr h es harr
    have hes : Mem.elems h arr = es := elems_of_lookup harr
    simp only [Mem.generatePermutationsAux, generatePermutationsAux, hes]
    by_cases hle : es.length ≤ 1
    · rw [if_pos hle, if_pos hle]
      exact hbase arr h es harr
    · rw [if_neg hle, if_neg hle]
      have harrlt : arr ≠ Mem.Val.ref h.length := by
        intro hEq
        rw [hEq] at harr
        simp [Mem.lookup] at harr
      have hloop := @forLoop_spec _ _ ih h.length arr es harrlt es.length 0
        (h ++ [Mem.Obj.array []]) [] [] (by omega)
        (lookup_mono (List.prefix_append _ _) harr)
        (List.getElem?_concat_length h _) List.Forall₂.nil
      obtain ⟨hs, ⟨refs, hres, hall⟩, _⟩ := hloop
      refine ⟨extends_of_sameExcept (List.prefix_append _ _) (Nat.le_refl _) hs, rfl, refs,
        hres, ?_⟩
      rw [List.nil_append, List.drop_zero] at hall
      refine List.Forall₂.imp ?_ hall
      rintro v p ⟨hl, a, rfl, ha⟩
      exact ⟨hl, Or.inr ⟨a, rfl, Nat.le_of_lt ha⟩⟩

theorem traverse_read {β : Type} (g : Mem.Heap → Mem.Val → β) (arr : Mem.Val)
    (js : List Nat) (h : Mem.Heap) :
    Mem.traverse (fun x h => (g h x, h)) arr js h
      = (js.map (fun j => g h (Mem.index h arr j)), h) := by
  induction js with
  | nil => rfl
  | cons j js ih => simp only [Mem.traverse, ih, List.map_cons]

theorem arrayMap_read (g : Mem.Heap → Mem.Val → Mem.Val) {arr : Mem.Val} {h : Mem.Heap}
    {es : List Mem.Val} (harr : Mem.lookup h arr = some (Mem.Obj.array es)) :
    Mem.arrayMap (fun x h => (g h x, h)) arr h = Mem.alloc h (Mem.Obj.array (es.map (g h))) := by
  have hmap : (List.range es.length).map (fun j => g h (Mem.index h arr j)) = es.map (g h) := by
    conv_rhs => rw [← range_map_getD es Mem.Val.undefined]
    rw [List.map_map]
    apply List.map_congr_left
    intro j _
    simp only [Function.comp, index_of_lookup harr]
  simp only [Mem.arrayMap, traverse_read, elems_of_lookup harr, hmap]

theorem represents_mono {h h2 : Mem.Heap} {this : Mem.Val} {e : Engine} (hp : h <+: h2)
    (hrep : Mem.Represents h this e) : Mem.Represents h2 this e := by
  obtain ⟨listsV, configV, entryVs, hthis, hconf, hlists, hent⟩ := hrep
  refine ⟨listsV, configV, entryVs, lookup_mono hp hthis, lookup_mono hp hconf,
    lookup_mono hp hlists, ?_⟩
  refine List.Forall₂.imp ?_ hent
  rintro v l ⟨itemsV, hv, hitems⟩
  exact ⟨itemsV, lookup_mono hp hv, lookup_mono hp hitems⟩

theorem map_toStr_str (xs : List String) : (xs.map Mem.Val.str).map Mem.toStr = xs := by
  rw [List.map_map]
  exact List.map_id _

theorem formatEach_spec {h : Mem.Heap} {c : Config} {outs : List Mem.Val}
    {combos : List Combo} (habs : List.Forall₂ (Mem.AbsCombo h) outs combos) :
    Mem.formatEach h c outs = mapCombos c combos := by
  induction habs with
  | nil => rfl
  | @cons v combo outs combos hv _ ih =>
    cases combo with
    | str s =>
      have hv2 : v = Mem.Val.str s := hv
      subst hv2
      rfl
    | arr xs =>
      have hv2 : Mem.lookup h v = some (Mem.Obj.array (xs.map Mem.Val.str)) := hv
      simp only [Mem.formatEach, Mem.joinArray, hv2, mapCombos, formatCombo, ih,
        map_toStr_str]

theorem mapCombos_arr (c : Config) (l : List (List String)) :
    mapCombos c (l.map Combo.arr)
      = Except.ok (l.map (fun perm => c.prefix_ ++ join perm c.separator ++ c.suffix)) := by
  induction l with
  | nil => rfl
  | cons x xs ih => simp only [List.map_cons, mapCombos, formatCombo, ih]

theorem finish_spec {h : Mem.Heap} {c : Config} {tuples : Mem.Val} {outs : List Mem.Val}
    {combos : List Combo} (ht : Mem.lookup h tuples = some (Mem.Obj.array outs))
    (habs : List.Forall₂ (Mem.AbsCombo h) outs combos) :
    h <+: (Mem.finish c tuples h).2
    ∧ Mem.readOutcome (Mem.finish c tuples h).2 (Mem.finish c tuples h).1
        = some (match mapCombos c combos with
            | Except.error err => Except.error err
            | Except.ok results =>
              Except.ok { results := results, total := results.length, truncated := false,
                          truncatedAt := 0 }) := by
  unfold Mem.finish
  rw [elems_of_lookup ht, formatEach_spec habs]
  cases mapCombos c combos with
  | error err => exact ⟨List.prefix_refl _, rfl⟩
  | ok ss =>
    refine ⟨(alloc_extends _ _).trans (alloc_extends _ _), ?_⟩
    simp only [Mem.readOutcome, lookup_alloc]
    have hres : Mem.elems
        (Mem.alloc (Mem.alloc h (Mem.Obj.array (ss.map Mem.Val.str))).2
          (Mem.Obj.result (Mem.alloc h (Mem.Obj.array (ss.map Mem.Val.str))).1
            ss.length false 0)).2
        (Mem.alloc h (Mem.Obj.array (ss.map Mem.Val.str))).1 = ss.map Mem.Val.str :=
      elems_of_lookup (lookup_mono (alloc_extends _ _) (lookup_alloc _ _))
    rw [hres, map_toStr_str]

theorem generate_of_combos {e : Engine} (hne : e.lists.length ≠ 0)
    (hbranch : e.config.type = "combinations" ∨ e.lists.length ≠ 1) :
    generate e
      = (match mapCombos e.config (cartesianProduct (e.lists.map (fun list => list.items))) with
          | Except.error err => Except.error err
          | Except.ok results =>
            Except.ok { results := results, total := results.length, truncated := false,
                        truncatedAt := 0 }) := by
  unfold generate generateResults
  rw [if_neg hne]
  rcases hbranch with ht | hl
  · simp only [if_pos ht]
  · by_cases ht : e.config.type = "combinations"
    · simp only [if_pos ht]
    · simp only [if_neg ht, if_neg hl]

theorem generate_of_perms {e : Engine} {list0 : ListEntry} (hlists : e.lists = [list0])
    (ht : ¬ e.config.type = "combinations") :
    generate e
      = (match mapCombos e.config ((generatePermutations list0.items).map Combo.arr) with
          | Except.error err => Except.error err
          | Except.ok results =>
            Except.ok { results := results, total := results.length, truncated := false,
                        truncatedAt := 0 }) := by
  unfold generate generateResults
  rw [mapCombos_arr]
  simp only [hlists, List.length_singleton, if_neg ht, if_true]
  rfl

theorem mem_generatePermutations_spec {h : Mem.Heap} {arr : Mem.Val} {items : List String}
    (harr : Mem.lookup h arr = some (Mem.Obj.array (items.map Mem.Val.str))) :
    h <+: (Mem.generatePermutations arr h).2
    ∧ ∃ outs, Mem.lookup (Mem.generatePermutations arr h).2 (Mem.generatePermutations arr h).1
          = some (Mem.Obj.array outs)
        ∧ List.Forall₂ (Mem.AbsCombo (Mem.generatePermutations arr h).2) outs
            ((generatePermutations items).map Combo.arr) := by
  unfold Mem.generatePermutations
  obtain ⟨hp, _, outs, houts, hall⟩ :=
    mem_generatePermutationsAux_spec (Mem.elems h arr).length arr h _ harr
  refine ⟨hp, outs, houts, ?_⟩
  rw [elems_of_lookup harr] at hall ⊢
  have hpure : generatePermutationsAux (items.map Mem.Val.str).length (items.map Mem.Val.str)
      = (generatePermutations items).map (List.map Mem.Val.str) :=
    generatePermutations_map_aux Mem.Val.str items.length items rfl
  rw [hpure, List.forall₂_map_right_iff] at hall
  rw [List.forall₂_map_right_iff]
  refine List.Forall₂.imp ?_ hall
  rintro v p ⟨hl, _⟩
  exact hl

theorem mem_generate_spec {h : Mem.Heap} {this : Mem.Val} {e : Engine}
    (hrep : Mem.Represents h this e) :
    h <+: (Mem.generate this h).2
    ∧ Mem.readOutcome (Mem.generate this h).2 (Mem.generate this h).1 = some (generate e) := by
  obtain ⟨listsV, configV, entryVs, hthis, hconf, hlists, hent⟩ := hrep
  have hlen : entryVs.length = e.lists.length := hent.length_eq
  have hlistsOf : ∀ h2, h <+: h2 → Mem.listsOf h2 this = listsV := by
    intro h2 hp
    unfold Mem.listsOf
    rw [lookup_mono hp hthis]
  have hconfOf : ∀ h2, h <+: h2 → Mem.configOf h2 this = e.config := by
    intro h2 hp
    unfold Mem.configOf
    rw [lookup_mono hp hthis]
    simp only
    rw [lookup_mono hp hconf]
  have hread := arrayMap_read (fun h v => Mem.itemsOf h v) hlists
  simp only [Mem.generate, hlistsOf h (List.prefix_refl _), elems_of_lookup hlists, hlen, hread]
  by_cases hne : e.lists.length = 0
  · rw [if_pos hne]
    refine ⟨List.prefix_refl _, ?_⟩
    unfold generate
    rw [if_pos hne]
    rfl
  · rw [if_neg hne]
    have hp2 : h <+: (Mem.alloc (Mem.alloc h (Mem.Obj.array
        (List.map (fun v => Mem.itemsOf h v) entryVs))).2 (Mem.Obj.array [])).2 :=
      (alloc_extends _ _).trans (alloc_extends _ _)
    have harrays : Mem.lookup
        (Mem.alloc (Mem.alloc h (Mem.Obj.array
          (List.map (fun v => Mem.itemsOf h v) entryVs))).2 (Mem.Obj.array [])).2
        (Mem.alloc h (Mem.Obj.array (List.map (fun v => Mem.itemsOf h v) entryVs))).1
        = some (Mem.Obj.array (List.map (fun v => Mem.itemsOf h v) entryVs)) :=
      lookup_mono (alloc_extends _ _) (lookup_alloc _ _)
    generalize (Mem.alloc (Mem.alloc h (Mem.Obj.array
        (List.map (fun v => Mem.itemsOf h v) entryVs))).2 (Mem.Obj.array [])).2 = h2
      at hp2 harrays ⊢
    generalize (Mem.alloc h (Mem.Obj.array
        (List.map (fun v => Mem.itemsOf h v) entryVs))).1 = arraysV at harrays ⊢
    have hitems : List.Forall₂ (fun v (items : List String) =>
        Mem.lookup h2 v = some (Mem.Obj.array (items.map Mem.Val.str)))
        (List.map (fun v => Mem.itemsOf h v) entryVs) (e.lists.map (fun list => list.items)) := by
      rw [List.forall₂_map_left_iff, List.forall₂_map_right_iff]
      refine List.Forall₂.imp ?_ hent
      rintro v l ⟨itemsV, hv, hi⟩
      have hiv : Mem.itemsOf h v = itemsV := by
        unfold Mem.itemsOf
        rw [hv]
      rw [hiv]
      exact lookup_mono hp2 hi
    have hcombos : h <+: (Mem.finish
          (Mem.configOf (Mem.cartesianProduct arraysV h2).2 this)
          (Mem.cartesianProduct arraysV h2).1 (Mem.cartesianProduct arraysV h2).2).2
        ∧ Mem.readOutcome (Mem.finish
            (Mem.configOf (Mem.cartesianProduct arraysV h2).2 this)
            (Mem.cartesianProduct arraysV h2).1 (Mem.cartesianProduct arraysV h2).2).2
          (Mem.finish
            (Mem.configOf (Mem.cartesianProduct arraysV h2).2 this)
            (Mem.cartesianProduct arraysV h2).1 (Mem.cartesianProduct arraysV h2).2).1
          = some (match mapCombos e.config
                (cartesianProduct (e.lists.map (fun list => list.items))) with
              | Except.error err => Except.error err
              | Except.ok results =>
                Except.ok { results := results, total := results.length, truncated := false,
                            truncatedAt := 0 }) := by
      obtain ⟨hp3, outs, houts, habs⟩ := mem_cartesianProduct_spec harrays hitems
      rw [hconfOf _ (hp2.trans hp3)]
      obtain ⟨hp4, hro⟩ := finish_spec (c := e.config) houts habs
      exact ⟨hp2.trans (hp3.trans hp4), hro⟩
    rw [hconfOf h2 hp2, hlistsOf h2 hp2, elems_of_lookup (lookup_mono hp2 hlists), hlen,
      index_of_lookup (lookup_mono hp2 hlists) 0]
    by_cases ht : e.config.type = "combinations"
    · simp only [if_pos ht]
      rw [generate_of_combos hne (Or.inl ht)]
      exact hcombos
    · simp only [if_neg ht]
      by_cases hone : e.lists.length = 1
      · simp only [if_pos hone]
        obtain ⟨l0, hl0⟩ := List.length_eq_one.mp hone
        rw [hl0] at hent
        cases hent with
        | @cons v0 _ vs _ h0 hrest =>
          cases hrest with
          | nil =>
            obtain ⟨itemsV, hv0, hi0⟩ := h0
            have hiv : Mem.itemsOf h2 v0 = itemsV := by
              unfold Mem.itemsOf
              rw [lookup_mono hp2 hv0]
            simp only [List.getD_cons_zero, hiv]
            obtain ⟨hp3, outs, houts, habs⟩ :=
              mem_generatePermutations_spec (lookup_mono hp2 hi0)
            rw [hconfOf _ (hp2.trans hp3)]
            obtain ⟨hp4, hro⟩ := finish_spec (c := e.config) houts habs
            rw [generate_of_perms hl0 ht]
            exact ⟨hp2.trans (hp3.trans hp4), hro⟩
      · simp only [if_neg hone]
        rw [generate_of_combos hne (Or.inr hone)]
        exact hcombos

theorem mem_generateWithLimit_spec {h : Mem.Heap} {this : Mem.Val} {e : Engine} (limit : Nat)
    (hrep : Mem.Represents h this e) :
    h <+: (Mem.generateWithLimit this limit h).2
    ∧ Mem.readOutcome (Mem.generateWithLimit this limit h).2
        (Mem.generateWithLimit this limit h).1 = some (generateWithLimit e limit) := by
  obtain ⟨hp, hro⟩ := mem_generate_spec hrep
  unfold Mem.generateWithLimit generateWithLimit
  simp only
  generalize Mem.generate this h = r at hp hro
  obtain ⟨outcome, h2⟩ := r
  cases outcome with
  | error err =>
    have hgen : generate e = Except.error err := by
      simp only [Mem.readOutcome, Option.some.injEq] at hro
      exact hro.symm
    rw [hgen]
    exact ⟨hp, rfl⟩
  | ok result =>
    simp only [Mem.readOutcome] at hro
    simp only
    split at hro
    · rename_i results total truncated truncatedAt hlook
      simp only [Option.some.injEq] at hro
      rw [← hro]
      simp only
      by_cases hgt : total > limit
      · simp only [if_pos hgt]
        refine ⟨hp.trans ((alloc_extends _ _).trans (alloc_extends _ _)), ?_⟩
        simp only [Mem.readOutcome, lookup_alloc]
        have hres : Mem.elems
            (Mem.alloc (Mem.alloc h2 (Mem.Obj.array ((Mem.elems h2 results).take limit))).2
              (Mem.Obj.result (Mem.alloc h2
                (Mem.Obj.array ((Mem.elems h2 results).take limit))).1 total true limit)).2
            (Mem.alloc h2 (Mem.Obj.array ((Mem.elems h2 results).take limit))).1
            = (Mem.elems h2 results).take limit :=
          elems_of_lookup (lookup_mono (alloc_extends _ _) (lookup_alloc _ _))
        rw [hres, List.map_take]
      · simp only [if_neg hgt]
        refine ⟨hp, ?_⟩
        simp only [Mem.readOutcome, hlook]
    · cases hro

theorem sampleHeap_represents :
    Mem.Represents Mem.sampleHeap (Mem.Val.ref 4) Mem.sampleEngine :=
  ⟨Mem.Val.ref 2, Mem.Val.ref 3, [Mem.Val.ref 1], rfl, rfl, rfl,
    List.Forall₂.cons ⟨Mem.Val.ref 0, rfl, rfl⟩ List.Forall₂.nil⟩

theorem sampleHeap_generateWithLimit :
    Mem.readOutcome (Mem.generateWithLimit (Mem.Val.ref 4) 2 Mem.sampleHeap).2
        (Mem.generateWithLimit (Mem.Val.ref 4) 2 Mem.sampleHeap).1
      = some (Except.ok { results := ["x y z", "x z y"], total := 6, truncated := true,
                          truncatedAt := 2 }) := by
  rfl

theorem push_writes_in_place :
    Mem.push [Mem.Obj.array [Mem.Val.str "x"]] (Mem.Val.ref 0) (Mem.Val.str "y")
      = [Mem.Obj.array [Mem.Val.str "x", Mem.Val.str "y"]] := by
  decide

/-- C25. On a heap of mutable objects holding an engine, a call of `generate()` or
of `generateWithLimit(limit)` changes no object that existed before the call: the
heap before it is a prefix of the heap after it, so the engine object, its `lists`
array, every entry, every `items` array and the config object are as they were, and
the store still holds the same lists and config. A second call, made on the heap the
first one left, therefore yields the same outcome as the first: the same exception,
or a result object with the same strings in the same order and the same `total`,
`truncated` and `truncatedAt`; and that outcome is the one the value-level
`generate` and `generateWithLimit` compute. -/
theorem generate_leaves_store_unchanged (h : Mem.Heap) (this : Mem.Val) (e : Engine)
    (limit : Nat) (hrep : Mem.Represents h this e) :
    (h <+: (Mem.generate this h).2
      ∧ Mem.Represents (Mem.generate this h).2 this e
      ∧ Mem.readOutcome (Mem.generate this (Mem.generate this h).2).2
            (Mem.generate this (Mem.generate this h).2).1
          = Mem.readOutcome (Mem.generate this h).2 (Mem.generate this h).1
      ∧ Mem.readOutcome (Mem.generate this h).2 (Mem.generate this h).1 = some (generate e))
    ∧ (h <+: (Mem.generateWithLimit this limit h).2
      ∧ Mem.Represents (Mem.generateWithLimit this limit h).2 this e
      ∧ Mem.readOutcome
            (Mem.generateWithLimit this limit (Mem.generateWithLimit this limit h).2).2
            (Mem.generateWithLimit this limit (Mem.generateWithLimit this limit h).2).1
          = Mem.readOutcome (Mem.generateWithLimit this limit h).2
              (Mem.generateWithLimit this limit h).1
      ∧ Mem.readOutcome (Mem.generateWithLimit this limit h).2
            (Mem.generateWithLimit this limit h).1 = some (generateWithLimit e limit)) := by
  obtain ⟨hp1, hro1⟩ := mem_generate_spec hrep
  obtain ⟨hp2, hro2⟩ := mem_generateWithLimit_spec limit hrep
  have hrep1 := represents_mono hp1 hrep
  have hrep2 := represents_mono hp2 hrep
  exact ⟨⟨hp1, hrep1, (mem_generate_spec hrep1).2.trans hro1.symm, hro1⟩,
    ⟨hp2, hrep2, (mem_generateWithLimit_spec limit hrep2).2.trans hro2.symm, hro2⟩⟩

/-- C25 witness: the heap holding the one list `x`, `y`, `z` in permutations mode,
`limit = 2`. -/
theorem generate_leaves_store_unchanged_witness :
    Mem.Represents Mem.sampleHeap (Mem.Val.ref 4) Mem.sampleEngine
    ∧ (Mem.sampleHeap <+: (Mem.generate (Mem.Val.ref 4) Mem.sampleHeap).2
      ∧ Mem.Represents (Mem.generate (Mem.Val.ref 4) Mem.sampleHeap).2 (Mem.Val.ref 4)
          Mem.sampleEngine
      ∧ Mem.readOutcome
            (Mem.generate (Mem.Val.ref 4) (Mem.generate (Mem.Val.ref 4) Mem.sampleHeap).2).2
            (Mem.generate (Mem.Val.ref 4) (Mem.generate (Mem.Val.ref 4) Mem.sampleHeap).2).1
          = Mem.readOutcome (Mem.generate (Mem.Val.ref 4) Mem.sampleHeap).2
              (Mem.generate (Mem.Val.ref 4) Mem.sampleHeap).1
      ∧ Mem.readOutcome (Mem.generate (Mem.Val.ref 4) Mem.sampleHeap).2
            (Mem.generate (Mem.Val.ref 4) Mem.sampleHeap).1
          = some (generate Mem.sampleEngine))
    ∧ (Mem.sampleHeap <+: (Mem.generateWithLimit (Mem.Val.ref 4) 2 Mem.sampleHeap).2
      ∧ Mem.Represents (Mem.generateWithLimit (Mem.Val.ref 4) 2 Mem.sampleHeap).2
          (Mem.Val.ref 4) Mem.sampleEngine
      ∧ Mem.readOutcome
            (Mem.generateWithLimit (Mem.Val.ref 4) 2
              (Mem.generateWithLimit (Mem.Val.ref 4) 2 Mem.sampleHeap).2).2
            (Mem.generateWithLimit (Mem.Val.ref 4) 2
              (Mem.generateWithLimit (Mem.Val.ref 4) 2 Mem.sampleHeap).2).1
          = Mem.readOutcome (Mem.generateWithLimit (Mem.Val.ref 4) 2 Mem.sampleHeap).2
              (Mem.generateWithLimit (Mem.Val.ref 4) 2 Mem.sampleHeap).1
      ∧ Mem.readOutcome (Mem.generateWithLimit (Mem.Val.ref 4) 2 Mem.sampleHeap).2
            (Mem.generateWithLimit (Mem.Val.ref 4) 2 Mem.sampleHeap).1
          = some (generateWithLimit Mem.sampleEngine 2)) :=
  ⟨sampleHeap_represents,
    generate_leaves_store_unchanged Mem.sampleHeap (Mem.Val.ref 4) Mem.sampleEngine 2
      sampleHeap_represents⟩

end Combin
